import Mathlib

/-!
liblog: level filter, line formatter and buffer dump

A shallow embedding of `src/log.c` / `src/log.h`.

* Text is `List Char`; what a function writes to `stderr` is returned as
  the list of characters written.
* `enum log_level` has no negative enumerator, so with GCC and Clang its
  underlying type is `unsigned int`: levels are natural numbers.
* The two static variables `log_level` and `colors` form `LogState`.
-/

namespace Liblog

/-! ## Constants (`log.h`, `log.c`) -/

def LOG_LEVEL_ERROR : Nat := 0
def LOG_LEVEL_WARNING : Nat := 1
def LOG_LEVEL_INFO : Nat := 2
def LOG_LEVEL_DEBUG : Nat := 3
/-- Not a log level, the value indicating a wrong log level. -/
def LOG_LEVEL_ERR : Nat := 4

def LOG_LINE_SIZE : Nat := 16
def LOG_ADDRESS_DATA_SIZE : Nat := 8
def LOG_SINGLE_HEX_DATA_SIZE : Nat := 3
def LOG_HEX_DATA_SIZE : Nat := LOG_SINGLE_HEX_DATA_SIZE * LOG_LINE_SIZE
def LOG_CHAR_DATA_SIZE : Nat := LOG_LINE_SIZE

def COLOR_RESET : Nat := 4

/-- The terminating character of a C string. -/
def NUL : Char := Char.ofNat 0

/-- The escape character, `\033`, that starts every colour sequence. -/
def ESC : Char := Char.ofNat 27

/-! ## Data model -/

/-- A C string as the code sees it through a `const char *`: `chars` are the
characters before the terminating NUL, `past` is the byte that happens to be
stored right after the terminator (C does not say what it is; `fmt[1]` reads
it when the string is empty). -/
structure CString where
  chars : List Char
  past : Char
deriving DecidableEq, Repr

/-- The read `s[i]`. -/
def CString.at (s : CString) (i : Nat) : Char :=
  if i < s.chars.length then s.chars.getD i NUL
  else if i = s.chars.length then NUL
  else s.past

/-- The table `static char colors[5][6]`, one string per row. -/
structure Colors where
  error : List Char
  warning : List Char
  info : List Char
  debug : List Char
  reset : List Char
deriving DecidableEq, Repr

/-- The read `colors[i]` as a string (rows 0..4). -/
def Colors.get (c : Colors) (i : Nat) : List Char :=
  match i with
  | 0 => c.error
  | 1 => c.warning
  | 2 => c.info
  | 3 => c.debug
  | 4 => c.reset
  | _ => []

/-- The static variables of `log.c`. -/
structure LogState where
  log_level : Nat
  colors : Colors
deriving DecidableEq, Repr

/-- State at program start: `log_level = LOG_LEVEL_INFO`, `colors` zeroed. -/
def LogState.initial : LogState :=
  { log_level := LOG_LEVEL_INFO, colors := ⟨[], [], [], [], []⟩ }

/-! ## `log_enabled` -/

/-- The function `log_enabled(fmt, &fmt_log_level)`: the returned `int`
together with the final value of the out-parameter, whose value before the
call is `fmt_log_level`. -/
def log_enabled (st : LogState) (fmt : Option CString) (fmt_log_level : Nat) :
    Int × Nat :=
  match fmt with
  | none => (0, fmt_log_level)
  | some s =>
    if s.at 1 ≠ '/' then (1, LOG_LEVEL_INFO)
    else
      let tagged : Option Nat :=
        if s.at 0 = 'D' then some LOG_LEVEL_DEBUG
        else if s.at 0 = 'I' then some LOG_LEVEL_INFO
        else if s.at 0 = 'W' then some LOG_LEVEL_WARNING
        else if s.at 0 = 'E' then some LOG_LEVEL_ERROR
        else none
      match tagged with
      | none => (1, LOG_LEVEL_INFO)
      | some lvl => if lvl ≤ st.log_level then (1, lvl) else (0, lvl)

/-! ## The `printf` conversions the code uses -/

/-- The conversion `%d`. -/
def fmt_d (v : Int) : List Char :=
  if v < 0 then '-' :: Nat.toDigits 10 v.natAbs else Nat.toDigits 10 v.toNat

/-- The conversions `%02x` and `%04x`: lowercase hexadecimal, zero-padded
on the left to at least `width` digits. -/
def fmt_x (width : Nat) (v : Nat) : List Char :=
  List.replicate (width - (Nat.toDigits 16 v).length) '0' ++ Nat.toDigits 16 v

/-- The conversion `%-*s`: left-justified, space-padded to `width`. -/
def fmt_s_left (width : Nat) (s : List Char) : List Char :=
  s ++ List.replicate (width - s.length) ' '

/-- The conversion `%.*s`: at most `prec` characters of `s`. -/
def fmt_s_prec (prec : Nat) (s : List Char) : List Char :=
  s.take prec

/-- An `unsigned int` read back as `int` (an `enum log_level` argument
printed with `%d`). -/
def int_of_unsigned (v : Nat) : Int :=
  if v % 2 ^ 32 < 2 ^ 31 then ((v % 2 ^ 32 : Nat) : Int)
  else ((v % 2 ^ 32 : Nat) : Int) - 2 ^ 32

/-- The call `vfprintf(stderr, fmt, va)`: a format without `%` is written
as it is; for a format with conversion directives the text is the expansion
libc makes of it from the variadic arguments, `va fmt`. -/
def vfprintf (va : List Char → List Char) (fmt : List Char) : List Char :=
  if '%' ∈ fmt then va fmt else fmt

/-! ## `log_init` -/

/-- The escape sequences `log_init` copies into `colors`. -/
def ansi_colors : Colors :=
  { error := "\x1b[31m".toList
    warning := "\x1b[35m".toList
    info := "\x1b[32m".toList
    debug := "\x1b[34m".toList
    reset := "\x1b[0m".toList }

/-- The function `log_init(level, colorful)`: the new state and the text
written to `stderr`. (The four `sigaction` calls change the signal
dispositions kept by the kernel, not the variables of `log.c`.) -/
def log_init (st : LogState) (level : Nat) (colorful : Int) : LogState × List Char :=
  let colors := if colorful ≠ 0 then ansi_colors else st.colors
  if level ≥ LOG_LEVEL_ERR then
    ({ log_level := st.log_level, colors := colors },
      "E/Given log level is wrong, passed: ".toList ++ fmt_d (int_of_unsigned level)
        ++ "\n".toList)
  else
    ({ log_level := level, colors := colors }, [])

/-! ## `log_print` -/

/-- The function `log_print(file, line, fmt, ...)`: the text written to
`stderr`. The local `level` is not initialised in the source; `log_enabled`
stores to it on every path that returns nonzero. -/
def log_print (st : LogState) (va : List Char → List Char) (file : Option (List Char))
    (line : Int) (fmt : Option CString) : List Char :=
  let r := log_enabled st fmt LOG_LEVEL_ERR
  if r.1 = 0 then []
  else
    match file, fmt with
    | some f, some s =>
      (st.colors.get r.2 ++ "[".toList ++ f ++ ":".toList ++ fmt_d line ++ "]".toList)
        ++ vfprintf va s.chars
        ++ st.colors.get COLOR_RESET
    | _, _ => []

/-! ## `print_line` -/

/-- A store of the characters `data` into the array `arr` from index `off`
on; `none` when it would go past the end of the array. -/
def store (arr : List Char) (off : Nat) (data : List Char) : Option (List Char) :=
  if off + data.length ≤ arr.length then
    some (arr.take off ++ data ++ arr.drop (off + data.length))
  else none

/-- The array `arr` read as a C string (`%s`): the characters before the
first NUL. -/
def c_str (arr : List Char) : List Char :=
  arr.takeWhile (fun c => c ≠ NUL)

/-- The character stored in `char_data` for a byte: `.` when the byte is
not printable. -/
def printable (current_byte : Nat) : Char :=
  if current_byte < 0x20 ∨ current_byte ≥ 0x7f then '.' else Char.ofNat current_byte

/-- The `for` loop of `print_line` with `n` iterations left, `buf` the
memory from the current pointer on: the final `hex_data` and `char_data`,
or `none` when a read or a store leaves its array. -/
def print_line_fill : Nat → List Nat → Nat → List Char → List Char →
    Option (List Char × List Char)
  | 0, _, _, hex_data, char_data => some (hex_data, char_data)
  | n + 1, buf, char_num, hex_data, char_data =>
    match buf with
    | [] => none
    | b :: buf' =>
      let current_byte := b % 256
      match store hex_data (char_num * LOG_SINGLE_HEX_DATA_SIZE)
          (fmt_x 2 current_byte ++ [' ', NUL]) with
      | none => none
      | some hex_data' =>
        match store char_data char_num [printable current_byte] with
        | none => none
        | some char_data' => print_line_fill n buf' (char_num + 1) hex_data' char_data'

/-- The function `print_line(buf, line_size, line_number)`: the line written
to `stderr`. `ADDRESS` is an `unsigned int`. -/
def print_line (buf : List Nat) (line_size line_number : Nat) : Option (List Char) :=
  let hex_data := List.replicate (LOG_HEX_DATA_SIZE + 1) NUL
  let char_data := List.replicate (LOG_CHAR_DATA_SIZE + 1) NUL
  let ADDRESS := (LOG_LINE_SIZE * line_number) % 2 ^ 32
  match print_line_fill line_size buf 0 hex_data char_data with
  | none => none
  | some (hex_data', char_data') =>
    some ("0x".toList ++ fmt_x 4 ADDRESS ++ ": ".toList
      ++ fmt_s_left LOG_HEX_DATA_SIZE (c_str hex_data') ++ " ".toList
      ++ c_str char_data' ++ "\n".toList)

/-! ## `log_buffer` -/

def separator : List Char :=
  "---------------------------------------------------------------------".toList

/-- The separator row, without its end of line. -/
def table_rule : List Char :=
  fmt_s_prec (LOG_ADDRESS_DATA_SIZE - 1) separator ++ " ".toList
    ++ fmt_s_prec (LOG_HEX_DATA_SIZE - 1) separator ++ "  ".toList
    ++ fmt_s_prec LOG_CHAR_DATA_SIZE separator

/-- The three `fprintf` calls of the table preamble. -/
def table_preamble : List Char :=
  (table_rule ++ "\n".toList)
    ++ (fmt_s_left LOG_ADDRESS_DATA_SIZE "addres:".toList
        ++ fmt_s_left (LOG_HEX_DATA_SIZE + 1) "hex:".toList ++ "ascii:".toList ++ "\n".toList)
    ++ (table_rule ++ "\n".toList)

/-- The loop printing all whole lines, with `n` iterations left: the lines
written by the successive `print_line` calls and the pointer `buf` after
the loop. -/
def whole_lines : Nat → List Nat → Nat → Option (List (List Char) × List Nat)
  | 0, buf, _ => some ([], buf)
  | n + 1, buf, line_number =>
    match print_line buf LOG_LINE_SIZE line_number with
    | none => none
    | some row =>
      match whole_lines n (buf.drop LOG_LINE_SIZE) (line_number + 1) with
      | none => none
      | some (rows, buf') => some (row :: rows, buf')

/-- The data rows of `log_buffer`: the whole lines, then the last line when
`buflen` is not divisible by `LOG_LINE_SIZE`; one list entry per
`print_line` call. -/
def data_rows (buf : List Nat) (buflen : Nat) : Option (List (List Char)) :=
  let LINES_COUNT := buflen / LOG_LINE_SIZE
  let LAST_LOG_LINE_SIZE := buflen % LOG_LINE_SIZE
  match whole_lines LINES_COUNT buf 0 with
  | none => none
  | some (rows, buf') =>
    if LAST_LOG_LINE_SIZE ≠ 0 then
      match print_line buf' LAST_LOG_LINE_SIZE LINES_COUNT with
      | none => none
      | some row => some (rows ++ [row])
    else some rows

/-- The part of `log_buffer` under "Print user log": `none` when the
function returns there, else the text written. -/
def user_log (st : LogState) (va : List Char → List Char) (fmt : Option CString) :
    Option (List Char) :=
  match fmt with
  | some s =>
    let r := log_enabled st (some s) LOG_LEVEL_DEBUG
    if r.1 = 0 then none
    else some (st.colors.get r.2 ++ vfprintf va s.chars)
  | none => some (st.colors.get LOG_LEVEL_DEBUG)

/-- The function `log_buffer(buf, buflen, fmt, ...)`: the text written to
`stderr`; `buf` is the memory from the pointer on. The result is `none`
when the code reads or stores outside an array. -/
def log_buffer (st : LogState) (va : List Char → List Char) (buf : Option (List Nat))
    (buflen : Nat) (fmt : Option CString) : Option (List Char) :=
  match buf with
  | none => some []
  | some mem =>
    match user_log st va fmt with
    | none => some []
    | some user =>
      match data_rows mem buflen with
      | none => none
      | some rows =>
        some (user ++ table_preamble ++ rows.flatten
          ++ (table_rule ++ st.colors.get COLOR_RESET ++ "\n".toList))

/-! ## The dump layout in the words of the specification -/

/-- Specification: the lowercase hexadecimal digit of value `d`. -/
def spec_hex_digit (d : Nat) : Char :=
  "0123456789abcdef".toList.getD d '?'

/-- Specification: a byte as two lowercase hexadecimal digits followed by
one space. -/
def spec_hex_byte (b : Nat) : List Char :=
  [spec_hex_digit (b % 256 / 16), spec_hex_digit (b % 256 % 16), ' ']

/-- Specification: the ASCII rendering of a byte, `.` when its value is
below 0x20 or at least 0x7f, the byte itself otherwise. -/
def spec_ascii (b : Nat) : Char :=
  if b % 256 < 0x20 ∨ b % 256 ≥ 0x7f then '.' else Char.ofNat (b % 256)

/-- Specification: the hex bytes of a row. -/
def spec_hex (bytes : List Nat) : List Char :=
  (bytes.map spec_hex_byte).flatten

/-- Specification: the text of a data row after its offset prefix: the hex
bytes left-justified and space-padded to 48 characters, one space, the
ASCII characters, the end of line. -/
def spec_row_body (bytes : List Nat) : List Char :=
  spec_hex bytes ++ List.replicate (48 - (spec_hex bytes).length) ' ' ++ [' ']
    ++ bytes.map spec_ascii ++ ['\n']

/-- The offset prefix `print_line` writes for `line_number`. -/
def row_address (line_number : Nat) : List Char :=
  "0x".toList ++ fmt_x 4 ((LOG_LINE_SIZE * line_number) % 2 ^ 32) ++ ": ".toList

/-- Specification: the data row number `line_number` holding `bytes`. -/
def spec_row (bytes : List Nat) (line_number : Nat) : List Char :=
  row_address line_number ++ spec_row_body bytes

/-- Specification: the data rows of a dump of the first `n` bytes of `mem`:
`n / 16` rows of 16 bytes each, followed, when `n % 16 ≠ 0`, by one row of
the remaining `n % 16` bytes. -/
def spec_rows (mem : List Nat) (n : Nat) : List (List Char) :=
  (List.range (n / 16)).map (fun i => spec_row ((mem.drop (16 * i)).take 16) i)
    ++ (if n % 16 ≠ 0 then [spec_row ((mem.drop (16 * (n / 16))).take (n % 16)) (n / 16)]
        else [])

/-! ## `log_level_handler` and sequences of calls -/

/-- The signal handler `log_level_handler(level)`: the `int` difference
`level - SIGRTMIN` converted to the unsigned `enum log_level`. `SIGRTMIN` is
the value of the libc macro. -/
def log_level_handler (SIGRTMIN : Int) (st : LogState) (level : Int) : LogState :=
  { log_level := ((level - SIGRTMIN) % 2 ^ 32).toNat, colors := st.colors }

/-- A call into the logger: `log_init` with any arguments, the delivery of
one of the four signals `SIGRTMIN + severity` that `log_init` registers,
`log_print`, `log_buffer`. -/
inductive Call where
  | init (level : Nat) (colorful : Int)
  | trigger (severity : Fin 4)
  | print (va : List Char → List Char) (file : Option (List Char)) (line : Int)
      (fmt : Option CString)
  | buffer (va : List Char → List Char) (buf : Option (List Nat)) (buflen : Nat)
      (fmt : Option CString)

/-- The state of the logger after one call; `log_print` and `log_buffer`
only write to `stderr`. -/
def Call.run (SIGRTMIN : Int) (st : LogState) : Call → LogState
  | Call.init level colorful => (log_init st level colorful).1
  | Call.trigger severity => log_level_handler SIGRTMIN st (SIGRTMIN + (severity.val : Int))
  | Call.print _ _ _ _ => st
  | Call.buffer _ _ _ _ => st

/-- The state reached from program start by a sequence of calls. -/
def run_calls (SIGRTMIN : Int) (calls : List Call) : LogState :=
  calls.foldl (Call.run SIGRTMIN) LogState.initial

/-! ## The `print_line` calls of `log_buffer` -/

/-- The arguments `(buf, line_size, line_number)` of the successive
`print_line` calls of `log_buffer`: the loop over the whole lines, then the
call for the last line. -/
def print_line_calls (buf : List Nat) (buflen : Nat) : List (List Nat × Nat × Nat) :=
  (List.range (buflen / LOG_LINE_SIZE)).map
      (fun line_number => (buf.drop (LOG_LINE_SIZE * line_number), LOG_LINE_SIZE, line_number))
    ++ (if buflen % LOG_LINE_SIZE ≠ 0 then
          [(buf.drop (LOG_LINE_SIZE * (buflen / LOG_LINE_SIZE)), buflen % LOG_LINE_SIZE,
            buflen / LOG_LINE_SIZE)]
        else [])

/-- The lines written by a sequence of `print_line` calls. -/
def run_print_lines : List (List Nat × Nat × Nat) → Option (List (List Char))
  | [] => some []
  | (buf, line_size, line_number) :: rest =>
    match print_line buf line_size line_number with
    | none => none
    | some row =>
      match run_print_lines rest with
      | none => none
      | some rows => some (row :: rows)

/-! ## `log_version` -/

/-- The call `strncpy(dst, src, n)` for a present string `src`: `n` bytes
are stored at the start of `dst`, the first `n` characters of `src` and then
NULs; `none` when `dst` has fewer than `n` bytes. -/
def strncpy (dst : List Char) (src : List Char) (n : Nat) : Option (List Char) :=
  store dst 0 (src.take n ++ List.replicate (n - src.length) NUL)

/-- The call `strncpy(dst, token, n)` with the pointer `strtok` returned:
reading through an absent (NULL) token is undefined, `none`. -/
def strncpy_token (dst : List Char) (token : Option (List Char)) (n : Nat) :
    Option (List Char) :=
  match token with
  | none => none
  | some src => strncpy dst src n

/-- The call `strtok(s, ".")` on the array `arr`, scanning from the offset
`start` (the argument, or the pointer saved by the call before): the token
(absent when only delimiters are left), the array after the call and the
saved offset. The result is `none` when the scan leaves the array without
meeting a NUL. -/
def strtok (arr : List Char) (start : Nat) :
    Option (Option (List Char) × List Char × Nat) :=
  let s := arr.drop start
  let k := (s.takeWhile (fun c => c = '.')).length
  let t := s.drop k
  match t with
  | [] => none
  | c :: _ =>
    if c = NUL then some (none, arr, start + k)
    else
      let len := (t.takeWhile (fun c => c ≠ '.' ∧ c ≠ NUL)).length
      match t.drop len with
      | [] => none
      | d :: _ =>
        if d = NUL then some (some (t.take len), arr, start + k + len)
        else some (some (t.take len), arr.set (start + k + len) NUL, start + k + len + 1)

/-- The function `log_version(major, minor, patch)`: the string returned and
the three slots after the call. `VERSION` is the string of the macro from
`version.h`; `junk` is what the uninitialised array `version` holds. The
result is `none` when the code reads through a NULL token or outside an
array. -/
def log_version (VERSION : List Char) (junk : Char)
    (major minor patch : Option (List Char)) :
    Option (List Char × Option (List Char) × Option (List Char) × Option (List Char)) :=
  match major, minor, patch with
  | some mj, some mn, some pt => do
    let version ← strncpy (List.replicate (11 + 1) junk) VERSION 11
    let (token1, version1, save1) ← strtok version 0
    let mj' ← strncpy_token mj token1 3
    let (token2, version2, save2) ← strtok version1 save1
    let mn' ← strncpy_token mn token2 3
    let (token3, _, _) ← strtok version2 save2
    let pt' ← strncpy_token pt token3 3
    pure (VERSION, some mj', some mn', some pt')
  | _, _, _ => some (VERSION, major, minor, patch)

/-- Specification: the dot-separated components of a version string, the
maximal non-empty runs of characters other than the dot (`1.2.3` has three,
`1.2` has two, and so has `1..2.`). -/
def spec_components (V : List Char) : List (List Char) :=
  (V.splitOn '.').filter (fun t => !t.isEmpty)

/-! ## Reading a dump back -/

/-- Specification: the value of a lowercase hexadecimal digit. -/
def hex_value (c : Char) : Nat :=
  "0123456789abcdef".toList.indexOf c

/-- Specification: the text of a data row after the `: ` of its offset. -/
def row_body (row : List Char) : List Char :=
  (row.dropWhile (fun c => c ≠ ':')).drop 2

/-- Specification: the hex field of a data row. -/
def row_hex_field (row : List Char) : List Char :=
  (row_body row).take 48

/-- Specification: the ASCII field of a data row, between the hex field with
its space and the end of line. -/
def row_ascii_field (row : List Char) : List Char :=
  ((row_body row).drop 49).dropLast

/-- Specification: the bytes a hex field holds, read group by group (two
digits and a space) up to the first blank group. -/
def parse_hex : List Char → List Nat
  | c1 :: c2 :: _ :: rest =>
    if c1 = ' ' then [] else (16 * hex_value c1 + hex_value c2) :: parse_hex rest
  | _ => []

/-! ## The level filter: `log_enabled` -/

/-- For a present message the out-parameter's value before the call does
not matter. -/
theorem log_enabled_some_init (st : LogState) (s : CString) (l0 l1 : Nat) :
    log_enabled st (some s) l0 = log_enabled st (some s) l1 := by
  simp [log_enabled]

/-- C1: for every threshold and every message that starts with `D/`, `I/`,
`W/` or `E/`, `log_enabled` returns 1 exactly when the severity named by the
tag is at most the threshold (and 0 otherwise) and reports that severity
either way, the severities being ordered ERROR < WARNING < INFO < DEBUG; with
the threshold WARNING, `E/` and `W/` pass and `I/` and `D/` are blocked. -/
theorem log_enabled_tagged (st : LogState) (c : Colors) (rest : List Char) (past : Char)
    (l0 : Nat) :
    (LOG_LEVEL_ERROR < LOG_LEVEL_WARNING ∧ LOG_LEVEL_WARNING < LOG_LEVEL_INFO
      ∧ LOG_LEVEL_INFO < LOG_LEVEL_DEBUG)
    ∧ log_enabled st (some ⟨'D' :: '/' :: rest, past⟩) l0
        = (if LOG_LEVEL_DEBUG ≤ st.log_level then 1 else 0, LOG_LEVEL_DEBUG)
    ∧ log_enabled st (some ⟨'I' :: '/' :: rest, past⟩) l0
        = (if LOG_LEVEL_INFO ≤ st.log_level then 1 else 0, LOG_LEVEL_INFO)
    ∧ log_enabled st (some ⟨'W' :: '/' :: rest, past⟩) l0
        = (if LOG_LEVEL_WARNING ≤ st.log_level then 1 else 0, LOG_LEVEL_WARNING)
    ∧ log_enabled st (some ⟨'E' :: '/' :: rest, past⟩) l0
        = (if LOG_LEVEL_ERROR ≤ st.log_level then 1 else 0, LOG_LEVEL_ERROR)
    ∧ (log_enabled ⟨LOG_LEVEL_WARNING, c⟩ (some ⟨'E' :: '/' :: rest, past⟩) l0).1 = 1
    ∧ (log_enabled ⟨LOG_LEVEL_WARNING, c⟩ (some ⟨'W' :: '/' :: rest, past⟩) l0).1 = 1
    ∧ (log_enabled ⟨LOG_LEVEL_WARNING, c⟩ (some ⟨'I' :: '/' :: rest, past⟩) l0).1 = 0
    ∧ (log_enabled ⟨LOG_LEVEL_WARNING, c⟩ (some ⟨'D' :: '/' :: rest, past⟩) l0).1 = 0 := by
  refine ⟨by decide, ?_, ?_, ?_, ?_, ?_, ?_, ?_, ?_⟩
  · simp only [log_enabled, CString.at]
    by_cases h : LOG_LEVEL_DEBUG ≤ st.log_level <;> simp [h]
  · simp only [log_enabled, CString.at]
    by_cases h : LOG_LEVEL_INFO ≤ st.log_level <;> simp [h]
  · simp only [log_enabled, CString.at]
    by_cases h : LOG_LEVEL_WARNING ≤ st.log_level <;> simp [h]
  · simp only [log_enabled, CString.at]
    by_cases h : LOG_LEVEL_ERROR ≤ st.log_level <;> simp [h]
  all_goals
    simp [log_enabled, CString.at, LOG_LEVEL_ERROR, LOG_LEVEL_WARNING, LOG_LEVEL_INFO,
      LOG_LEVEL_DEBUG]

/-- C2 (fail-open): for every threshold and every message of at least one
character `c`, if the message has no second character or its second
character is not `/`, or if `c` is none of `D`, `I`, `W`, `E`, then
`log_enabled` returns 1 and reports the severity INFO. -/
theorem log_enabled_fail_open (st : LogState) (c : Char) (rest : List Char) (past : Char)
    (l0 : Nat)
    (h : rest.head? ≠ some '/' ∨ (c ≠ 'D' ∧ c ≠ 'I' ∧ c ≠ 'W' ∧ c ≠ 'E')) :
    log_enabled st (some ⟨c :: rest, past⟩) l0 = (1, LOG_LEVEL_INFO) := by
  cases rest with
  | nil => simp [log_enabled, CString.at, NUL]
  | cons d tl =>
    by_cases hd : d = '/'
    · subst hd
      rcases h with h | ⟨h1, h2, h3, h4⟩
      · simp at h
      · simp [log_enabled, CString.at, h1, h2, h3, h4]
    · simp [log_enabled, CString.at, hd]

/-- The fail-open rule at a one-character message, at `hello`, at `Z/msg`
and at the lowercase `d/msg`, with the strictest threshold. -/
theorem log_enabled_fail_open_witness :
    log_enabled ⟨LOG_LEVEL_ERROR, ansi_colors⟩ (some ⟨"x".toList, '/'⟩) 0 = (1, LOG_LEVEL_INFO)
    ∧ log_enabled ⟨LOG_LEVEL_ERROR, ansi_colors⟩ (some ⟨"hello".toList, NUL⟩) 0
        = (1, LOG_LEVEL_INFO)
    ∧ log_enabled ⟨LOG_LEVEL_ERROR, ansi_colors⟩ (some ⟨"Z/msg".toList, NUL⟩) 0
        = (1, LOG_LEVEL_INFO)
    ∧ log_enabled ⟨LOG_LEVEL_ERROR, ansi_colors⟩ (some ⟨"d/msg".toList, NUL⟩) 0
        = (1, LOG_LEVEL_INFO) :=
  ⟨log_enabled_fail_open _ 'x' [] '/' 0 (Or.inl (by decide)),
   log_enabled_fail_open _ 'h' "ello".toList NUL 0 (Or.inl (by decide)),
   log_enabled_fail_open _ 'Z' "/msg".toList NUL 0 (Or.inr (by decide)),
   log_enabled_fail_open _ 'd' "/msg".toList NUL 0 (Or.inr (by decide))⟩

/-- C3 as stated fails: the empty message is allowed by `log_enabled`. -/
theorem log_enabled_empty_not_blocked :
    ¬ ((log_enabled LogState.initial (some ⟨[], NUL⟩) LOG_LEVEL_ERR).1 = 0) := by
  decide

/-- C3 (amended): for every threshold `log_enabled` returns 0 for an absent
message and leaves the out-parameter alone; for the empty string it returns
1 and reports INFO, whatever byte follows the terminator. -/
theorem log_enabled_absent_or_empty (st : LogState) (past : Char) (l0 : Nat) :
    log_enabled st none l0 = (0, l0)
    ∧ log_enabled st (some ⟨[], past⟩) l0 = (1, LOG_LEVEL_INFO) := by
  constructor
  · rfl
  · by_cases hp : past = '/'
    · subst hp
      simp [log_enabled, CString.at, NUL]
    · simp [log_enabled, CString.at, hp]

/-! ## `print_line` -/

theorem digitChar_eq_spec (d : Nat) (h : d < 16) : Nat.digitChar d = spec_hex_digit d := by
  interval_cases d <;> rfl

theorem digitChar_big (d : Nat) (h : 16 ≤ d) : Nat.digitChar d = '*' := by
  unfold Nat.digitChar
  repeat rw [if_neg (by omega)]

theorem digitChar_mem (d : Nat) : Nat.digitChar d ∈ "0123456789abcdef*".toList := by
  by_cases h : d < 16
  · interval_cases d <;> decide
  · rw [digitChar_big d (by omega)]
    decide

theorem toDigits_byte (b : Nat) (h : b < 256) :
    Nat.toDigits 16 b
      = if b < 16 then [Nat.digitChar b]
        else [Nat.digitChar (b / 16), Nat.digitChar (b % 16)] := by
  unfold Nat.toDigits
  rw [Nat.toDigitsCore]
  by_cases h16 : b < 16
  · have h1 : b / 16 = 0 := by omega
    have h2 : b % 16 = b := by omega
    simp [h1, h16, h2]
  · have hb : b / 16 ≠ 0 := by omega
    obtain ⟨b', rfl⟩ : ∃ b', b = b' + 1 := ⟨b - 1, by omega⟩
    rw [Nat.toDigitsCore]
    have h3 : (b' + 1) / 16 / 16 = 0 := by omega
    have h4 : (b' + 1) / 16 % 16 = (b' + 1) / 16 := by omega
    simp [hb, h16, h3, h4]

/-- The conversion `%02x` of a byte is its two hexadecimal digits. -/
theorem fmt_x_byte (b : Nat) (h : b < 256) :
    fmt_x 2 b = [spec_hex_digit (b / 16), spec_hex_digit (b % 16)] := by
  unfold fmt_x
  rw [toDigits_byte b h]
  by_cases h16 : b < 16
  · have h1 : b / 16 = 0 := by omega
    have h2 : b % 16 = b := by omega
    simp [h16, h1, h2, digitChar_eq_spec b h16]
    rfl
  · simp [h16, digitChar_eq_spec (b / 16) (by omega), digitChar_eq_spec (b % 16) (by omega)]

theorem store_append (H T data : List Char) (off : Nat) (hoff : off = H.length)
    (h : data.length ≤ T.length) :
    store (H ++ T) off data = some (H ++ data ++ T.drop data.length) := by
  subst hoff
  unfold store
  have hle : H.length + data.length ≤ (H ++ T).length := by simp; omega
  rw [if_pos hle]
  simp [List.drop_append]

theorem c_str_append_nul (xs : List Char) (m : Nat) (h : ∀ c ∈ xs, c ≠ NUL) :
    c_str (xs ++ List.replicate m NUL) = xs := by
  unfold c_str
  induction xs with
  | nil =>
    cases m with
    | zero => simp
    | succ m => simp [List.replicate_succ]
  | cons x xs ih =>
    have hx : x ≠ NUL := h x (by simp)
    have ih' := ih (fun c hc => h c (by simp [hc]))
    rw [List.cons_append, List.takeWhile_cons_of_pos (by simpa using hx), ih']

theorem spec_hex_length (bytes : List Nat) : (spec_hex bytes).length = 3 * bytes.length := by
  induction bytes with
  | nil => rfl
  | cons b bs ih =>
    simp only [spec_hex, List.map_cons, List.flatten_cons, List.length_append,
      List.length_cons] at ih ⊢
    rw [ih]
    simp [spec_hex_byte]
    omega

theorem spec_hex_cons (b : Nat) (bs : List Nat) :
    spec_hex (b :: bs) = spec_hex_byte b ++ spec_hex bs := by
  simp [spec_hex]

theorem printable_eq_spec (b : Nat) : printable (b % 256) = spec_ascii b := rfl

/-- The loop of `print_line` started at `char_num = j` on arrays that hold
`H` and `C` followed by NULs: it appends the hex bytes and the ASCII
characters of the next `n` bytes, and no access leaves an array. -/
theorem print_line_fill_eq (n : Nat) : ∀ (buf : List Nat) (j : Nat) (H C : List Char),
    n ≤ buf.length → j + n ≤ 16 → H.length = 3 * j → C.length = j →
    print_line_fill n buf j (H ++ List.replicate (49 - 3 * j) NUL)
        (C ++ List.replicate (17 - j) NUL)
      = some (H ++ spec_hex (buf.take n) ++ List.replicate (49 - 3 * (j + n)) NUL,
          C ++ (buf.take n).map spec_ascii ++ List.replicate (17 - (j + n)) NUL) := by
  induction n with
  | zero =>
    intro buf j H C _ _ _ _
    simp [print_line_fill, spec_hex]
  | succ n ih =>
    intro buf j H C hbuf hj hH hC
    cases buf with
    | nil => simp at hbuf
    | cons b buf' =>
      have hb : b % 256 < 256 := Nat.mod_lt _ (by decide)
      have hs1 : store (H ++ List.replicate (49 - 3 * j) NUL) (j * LOG_SINGLE_HEX_DATA_SIZE)
          (fmt_x 2 (b % 256) ++ [' ', NUL])
          = some ((H ++ spec_hex_byte b) ++ List.replicate (49 - 3 * (j + 1)) NUL) := by
        rw [store_append H _ _ _ (by simp [LOG_SINGLE_HEX_DATA_SIZE, hH]; omega)
          (by rw [fmt_x_byte _ hb]; simp; omega)]
        rw [fmt_x_byte _ hb]
        have e : 49 - 3 * j - 4 + 1 = 49 - 3 * (j + 1) := by omega
        simp [spec_hex_byte, ← e, List.replicate_succ]
      have hs2 : store (C ++ List.replicate (17 - j) NUL) j [printable (b % 256)]
          = some ((C ++ [spec_ascii b]) ++ List.replicate (17 - (j + 1)) NUL) := by
        rw [store_append C _ _ _ hC.symm (by simp; omega)]
        have e : 17 - j - 1 = 17 - (j + 1) := by omega
        simp [printable_eq_spec, e]
      have hbuf' : n ≤ buf'.length := by simpa using hbuf
      have hrec := ih buf' (j + 1) (H ++ spec_hex_byte b) (C ++ [spec_ascii b]) hbuf'
        (by omega) (by simp [spec_hex_byte, hH]; omega) (by simp [hC])
      simp only [print_line_fill, hs1, hs2, hrec]
      have e1 : j + 1 + n = j + (n + 1) := by omega
      simp [spec_hex_cons, e1]

theorem spec_hex_digit_print (d : Nat) :
    0x20 ≤ (spec_hex_digit d).toNat ∧ (spec_hex_digit d).toNat < 0x7f := by
  by_cases h : d < 16
  · interval_cases d <;> decide
  · have e : spec_hex_digit d = '?' := by
      unfold spec_hex_digit
      exact List.getD_eq_default _ _ (by simp; omega)
    rw [e]
    decide

theorem spec_ascii_print (b : Nat) :
    0x20 ≤ (spec_ascii b).toNat ∧ (spec_ascii b).toNat < 0x7f := by
  unfold spec_ascii
  split_ifs with h
  · decide
  · have h1 : 0x20 ≤ b % 256 := by omega
    have h2 : b % 256 < 0x7f := by omega
    generalize b % 256 = v at h1 h2
    interval_cases v <;> decide

theorem spec_hex_print (bytes : List Nat) :
    ∀ c ∈ spec_hex bytes, 0x20 ≤ c.toNat ∧ c.toNat < 0x7f := by
  induction bytes with
  | nil => intro c hc; simp [spec_hex] at hc
  | cons b bs ih =>
    intro c hc
    rw [spec_hex_cons, List.mem_append] at hc
    rcases hc with hc | hc
    · simp only [spec_hex_byte, List.mem_cons, List.mem_singleton, List.not_mem_nil,
        or_false] at hc
      rcases hc with rfl | rfl | rfl
      · exact spec_hex_digit_print _
      · exact spec_hex_digit_print _
      · decide
    · exact ih c hc

theorem ne_NUL_of_print (c : Char) (h : 0x20 ≤ c.toNat ∧ c.toNat < 0x7f) : c ≠ NUL := by
  rintro rfl
  have : NUL.toNat = 0 := by decide
  omega

/-- The refinement of `print_line`: for a row size of at most 16 bytes that
are all there, it writes the specified row, and no access leaves an
array. -/
theorem print_line_eq (buf : List Nat) (k line_number : Nat) (hk : k ≤ 16)
    (hbuf : k ≤ buf.length) :
    print_line buf k line_number = some (spec_row (buf.take k) line_number) := by
  have hfill : print_line_fill k buf 0 (List.replicate (LOG_HEX_DATA_SIZE + 1) NUL)
      (List.replicate (LOG_CHAR_DATA_SIZE + 1) NUL)
      = some (spec_hex (buf.take k) ++ List.replicate (49 - 3 * (0 + k)) NUL,
          (buf.take k).map spec_ascii ++ List.replicate (17 - (0 + k)) NUL) :=
    print_line_fill_eq k buf 0 [] [] hbuf (by omega) rfl rfl
  have h1 : c_str (spec_hex (buf.take k) ++ List.replicate (49 - 3 * (0 + k)) NUL)
      = spec_hex (buf.take k) :=
    c_str_append_nul _ _ (fun c hc => ne_NUL_of_print c (spec_hex_print _ c hc))
  have h2 : c_str ((buf.take k).map spec_ascii ++ List.replicate (17 - (0 + k)) NUL)
      = (buf.take k).map spec_ascii :=
    c_str_append_nul _ _ (fun c hc => by
      obtain ⟨b, _, rfl⟩ := List.mem_map.mp hc
      exact ne_NUL_of_print _ (spec_ascii_print b))
  simp only [print_line, hfill, h1, h2]
  simp [spec_row, row_address, spec_row_body, fmt_s_left, LOG_HEX_DATA_SIZE,
    LOG_SINGLE_HEX_DATA_SIZE, LOG_LINE_SIZE]

/-! ## `log_buffer` -/

theorem whole_lines_eq (k : Nat) : ∀ (buf : List Nat) (line_number : Nat),
    16 * k ≤ buf.length →
    whole_lines k buf line_number
      = some ((List.range k).map
          (fun i => spec_row ((buf.drop (16 * i)).take 16) (line_number + i)),
          buf.drop (16 * k)) := by
  induction k with
  | zero => intro buf line_number _; simp [whole_lines]
  | succ k ih =>
    intro buf line_number h
    have hp := print_line_eq buf 16 line_number (le_refl _) (by omega)
    have hd : 16 * k ≤ (buf.drop LOG_LINE_SIZE).length := by
      simp only [LOG_LINE_SIZE, List.length_drop]; omega
    have hrec := ih (buf.drop LOG_LINE_SIZE) (line_number + 1) hd
    simp only [whole_lines, LOG_LINE_SIZE] at hrec ⊢
    rw [hp, hrec]
    have hrows : List.map (fun i => spec_row (List.take 16 (List.drop (16 * i)
          (List.drop 16 buf))) (line_number + 1 + i)) (List.range k)
        = List.map ((fun i => spec_row (List.take 16 (List.drop (16 * i) buf))
            (line_number + i)) ∘ Nat.succ) (List.range k) := by
      apply List.map_congr_left
      intro i _
      have a1 : List.drop (16 * i) (List.drop 16 buf) = List.drop (16 * i.succ) buf := by
        rw [List.drop_drop]; congr 1; omega
      have a2 : line_number + 1 + i = line_number + i.succ := by omega
      simp only [Function.comp, a1, a2]
    have hdrop : List.drop (16 * k) (List.drop 16 buf) = List.drop (16 * (k + 1)) buf := by
      rw [List.drop_drop]; congr 1; omega
    rw [hrows, hdrop, List.range_succ_eq_map, List.map_cons, List.map_map]
    simp

/-- The refinement of the two row loops of `log_buffer`: when the first `n`
bytes are there, the rows written are the specified ones. -/
theorem data_rows_eq (mem : List Nat) (n : Nat) (h : n ≤ mem.length) :
    data_rows mem n = some (spec_rows mem n) := by
  have hw := whole_lines_eq (n / 16) mem 0 (by omega)
  simp only [data_rows, LOG_LINE_SIZE, hw, Nat.zero_add, spec_rows]
  by_cases hr : n % 16 ≠ 0
  · have hp := print_line_eq (mem.drop (16 * (n / 16))) (n % 16) (n / 16)
      (by omega) (by simp; omega)
    simp [hr, hp]
  · simp [hr]

theorem spec_rows_length (mem : List Nat) (n : Nat) :
    (spec_rows mem n).length = (n + 15) / 16 := by
  unfold spec_rows
  by_cases hr : n % 16 ≠ 0
  · simp [hr]; omega
  · simp [hr]; omega

theorem table_preamble_ne_nil (xs ys : List Char) : xs ++ table_preamble ++ ys ≠ [] := by
  have h : table_preamble ≠ [] := by decide
  simp [h]

/-! ## Characters of the dump -/

theorem digitChar_print (d : Nat) :
    0x20 ≤ (Nat.digitChar d).toNat ∧ (Nat.digitChar d).toNat < 0x7f := by
  have h := digitChar_mem d
  generalize Nat.digitChar d = c at h
  revert c
  decide

theorem toDigitsCore_print (b : Nat) : ∀ (fuel n : Nat) (ds : List Char),
    (∀ c ∈ ds, 0x20 ≤ c.toNat ∧ c.toNat < 0x7f) →
    ∀ c ∈ Nat.toDigitsCore b fuel n ds, 0x20 ≤ c.toNat ∧ c.toNat < 0x7f := by
  intro fuel
  induction fuel with
  | zero => intro n ds hds c hc; simpa [Nat.toDigitsCore] using hds c (by simpa [Nat.toDigitsCore] using hc)
  | succ fuel ih =>
    intro n ds hds c hc
    have hds' : ∀ c ∈ Nat.digitChar (n % b) :: ds, 0x20 ≤ c.toNat ∧ c.toNat < 0x7f := by
      intro c hc
      rcases List.mem_cons.mp hc with rfl | hc
      · exact digitChar_print _
      · exact hds c hc
    rw [Nat.toDigitsCore] at hc
    by_cases hz : n / b = 0
    · simp only [hz, if_true] at hc
      exact hds' c hc
    · simp only [hz, if_false] at hc
      exact ih _ _ hds' c hc

theorem toDigits_print (b n : Nat) :
    ∀ c ∈ Nat.toDigits b n, 0x20 ≤ c.toNat ∧ c.toNat < 0x7f :=
  toDigitsCore_print b _ _ [] (by simp)

theorem fmt_x_print (w v : Nat) : ∀ c ∈ fmt_x w v, 0x20 ≤ c.toNat ∧ c.toNat < 0x7f := by
  intro c hc
  rcases List.mem_append.mp hc with hc | hc
  · rw [(List.mem_replicate.mp hc).2]; decide
  · exact toDigits_print _ _ c hc

theorem fmt_d_print (v : Int) : ∀ c ∈ fmt_d v, 0x20 ≤ c.toNat ∧ c.toNat < 0x7f := by
  intro c hc
  unfold fmt_d at hc
  split_ifs at hc
  · rcases List.mem_cons.mp hc with rfl | hc
    · decide
    · exact toDigits_print _ _ c hc
  · exact toDigits_print _ _ c hc

/-- Every character of a data row is a printable ASCII character, except
the end of line. -/
theorem spec_row_chars (bytes : List Nat) (line_number : Nat) :
    ∀ c ∈ spec_row bytes line_number, c = '\n' ∨ (0x20 ≤ c.toNat ∧ c.toNat < 0x7f) := by
  intro c hc
  simp only [spec_row, row_address, spec_row_body, List.mem_append, List.mem_cons,
    List.mem_singleton, List.not_mem_nil, or_false, String.toList, List.mem_map] at hc
  rcases hc with ((hc | hc) | hc) | (((hc | hc) | hc) | hc) | hc
  · right; rcases hc with rfl | rfl <;> decide
  · right; exact fmt_x_print _ _ c hc
  · right; rcases hc with rfl | rfl <;> decide
  · right; exact spec_hex_print _ c hc
  · right; rw [(List.mem_replicate.mp hc).2]; decide
  · right; rw [hc]; decide
  · right; obtain ⟨b, _, rfl⟩ := hc; exact spec_ascii_print b
  · left; exact hc

theorem spec_rows_chars (mem : List Nat) (n : Nat) :
    ∀ c ∈ (spec_rows mem n).flatten, c = '\n' ∨ (0x20 ≤ c.toNat ∧ c.toNat < 0x7f) := by
  intro c hc
  obtain ⟨row, hrow, hc⟩ := List.mem_flatten.mp hc
  unfold spec_rows at hrow
  rcases List.mem_append.mp hrow with hrow | hrow
  · obtain ⟨i, _, rfl⟩ := List.mem_map.mp hrow
    exact spec_row_chars _ _ c hc
  · split_ifs at hrow
    · rw [List.mem_singleton.mp hrow] at hc
      exact spec_row_chars _ _ c hc
    · simp at hrow

theorem ESC_not_row_char (c : Char) (h : c = '\n' ∨ (0x20 ≤ c.toNat ∧ c.toNat < 0x7f)) :
    c ≠ ESC := by
  rintro rfl
  have e : ESC.toNat = 27 := by decide
  rcases h with h | h
  · exact absurd h (by decide)
  · omega

theorem colors_get_empty (i : Nat) : (⟨[], [], [], [], []⟩ : Colors).get i = [] := by
  unfold Colors.get
  split <;> rfl

/-! ## `log_init` -/

/-- C4: `log_init` sets the threshold to `level` and writes nothing when
`level` is one of ERROR, WARNING, INFO, DEBUG; for every other `level` it
leaves the threshold as it was and writes the one line
`E/Given log level is wrong, passed: <level>` with its end of line. -/
theorem log_init_level (st : LogState) (level : Nat) (colorful : Int) :
    ((level = LOG_LEVEL_ERROR ∨ level = LOG_LEVEL_WARNING ∨ level = LOG_LEVEL_INFO
        ∨ level = LOG_LEVEL_DEBUG) →
      (log_init st level colorful).1.log_level = level
      ∧ (log_init st level colorful).2 = [])
    ∧ (¬ (level = LOG_LEVEL_ERROR ∨ level = LOG_LEVEL_WARNING ∨ level = LOG_LEVEL_INFO
        ∨ level = LOG_LEVEL_DEBUG) →
      (log_init st level colorful).1.log_level = st.log_level
      ∧ (log_init st level colorful).2
          = "E/Given log level is wrong, passed: ".toList ++ fmt_d (int_of_unsigned level)
            ++ "\n".toList
      ∧ (log_init st level colorful).2.count '\n' = 1) := by
  have key : (level = LOG_LEVEL_ERROR ∨ level = LOG_LEVEL_WARNING ∨ level = LOG_LEVEL_INFO
      ∨ level = LOG_LEVEL_DEBUG) ↔ ¬ level ≥ LOG_LEVEL_ERR := by
    simp only [LOG_LEVEL_ERROR, LOG_LEVEL_WARNING, LOG_LEVEL_INFO, LOG_LEVEL_DEBUG,
      LOG_LEVEL_ERR]
    omega
  constructor
  · intro h
    have h' := key.mp h
    simp [log_init, h']
  · intro h
    have h' : level ≥ LOG_LEVEL_ERR := by
      by_contra hc
      exact h (key.mpr hc)
    have hd : List.count '\n' (fmt_d (int_of_unsigned level)) = 0 := by
      rw [List.count_eq_zero]
      intro hm
      have hp := fmt_d_print _ _ hm
      have e : ('\n' : Char).toNat = 10 := by decide
      omega
    have hc : List.count '\n' "E/Given log level is wrong, passed: ".toList = 0 := by decide
    refine ⟨by simp [log_init, h'], by simp [log_init, h'], ?_⟩
    simp only [log_init, h', if_true, List.count_append, hd, hc]
    decide

/-- The two cases of `log_init` at a valid level (WARNING) and at the
level 7, from the state at program start. -/
theorem log_init_level_witness :
    ((log_init LogState.initial 1 0).1.log_level = 1 ∧ (log_init LogState.initial 1 0).2 = [])
    ∧ ((log_init LogState.initial 7 0).1.log_level = LOG_LEVEL_INFO
      ∧ (log_init LogState.initial 7 0).2
          = "E/Given log level is wrong, passed: 7\n".toList
      ∧ (log_init LogState.initial 7 0).2.count '\n' = 1) :=
  ⟨(log_init_level LogState.initial 1 0).1 (by decide),
   (log_init_level LogState.initial 7 0).2 (by decide)⟩

/-! ## Colours -/

/-- C5 as stated fails: after an earlier `log_init` that enabled colours,
`log_init(level, 0)` leaves the escape sequences in the table. -/
theorem log_init_plain_keeps_colors :
    ¬ ((log_init (log_init LogState.initial LOG_LEVEL_INFO 1).1 LOG_LEVEL_INFO 0).1.colors.get
        LOG_LEVEL_ERROR = []) := by
  decide

theorem log_init_zero_frame (st : LogState) (level : Nat) :
    (log_init st level 0).1.colors = st.colors := by
  unfold log_init
  split_ifs <;> simp_all

/-- C5 (amended): `log_init(level, 0)` leaves the colour table as it was;
so from a state whose five colour entries are empty (the state at program
start, or one no earlier `log_init` coloured) all five entries are empty
afterwards, and then `log_print` and `log_buffer` write no escape character
unless the file name or the formatted message holds one. -/
theorem log_init_plain (st : LogState) (level : Nat)
    (h : st.colors = ⟨[], [], [], [], []⟩) :
    (log_init st level 0).1.colors = ⟨[], [], [], [], []⟩
    ∧ (∀ i, (log_init st level 0).1.colors.get i = [])
    ∧ (∀ (va : List Char → List Char) (file : Option (List Char)) (line : Int)
        (fmt : Option CString),
        (∀ f, file = some f → ESC ∉ f) →
        (∀ s, fmt = some s → ESC ∉ vfprintf va s.chars) →
        ESC ∉ log_print (log_init st level 0).1 va file line fmt)
    ∧ (∀ (va : List Char → List Char) (mem : List Nat) (n : Nat) (fmt : Option CString),
        n ≤ mem.length →
        (∀ s, fmt = some s → ESC ∉ vfprintf va s.chars) →
        ∃ out, log_buffer (log_init st level 0).1 va (some mem) n fmt = some out
          ∧ ESC ∉ out) := by
  have hc : (log_init st level 0).1.colors = ⟨[], [], [], [], []⟩ := by
    rw [log_init_zero_frame, h]
  have hget : ∀ i, (log_init st level 0).1.colors.get i = [] := by
    intro i; rw [hc]; exact colors_get_empty i
  refine ⟨hc, hget, ?_, ?_⟩
  · intro va file line fmt hfile hfmt
    have hd : ESC ∉ fmt_d line := fun hm =>
      ESC_not_row_char ESC (Or.inr (fmt_d_print line ESC hm)) rfl
    have e1 : ESC ≠ '[' := by decide
    have e2 : ESC ≠ ':' := by decide
    have e3 : ESC ≠ ']' := by decide
    unfold log_print
    simp only [hget, List.nil_append, List.append_nil]
    split_ifs
    · simp
    · cases file with
      | none => simp
      | some f =>
        cases fmt with
        | none => simp
        | some s =>
          have hf := hfile f rfl
          have hs := hfmt s rfl
          simp [hf, hs, hd, e1, e2, e3]
  · intro va mem n fmt hn hfmt
    have hrows := data_rows_eq mem n hn
    have hr : ESC ∉ (spec_rows mem n).flatten := fun hm =>
      ESC_not_row_char ESC (spec_rows_chars mem n ESC hm) rfl
    have hp : ESC ∉ table_preamble := by decide
    have ht : ESC ∉ table_rule := by decide
    have e1 : ESC ≠ '\n' := by decide
    unfold log_buffer user_log
    cases fmt with
    | none =>
      simp only [hget, hrows, List.nil_append, List.append_nil]
      exact ⟨_, rfl, by simp [hp, ht, hr, e1]⟩
    | some s =>
      have hs := hfmt s rfl
      simp only [hget, hrows, List.nil_append, List.append_nil]
      split_ifs
      · exact ⟨_, rfl, by simp⟩
      · exact ⟨_, rfl, by simp [hp, ht, hr, e1, hs]⟩

/-- From the state at program start, `log_init(DEBUG, 0)` leaves the table
empty, and a print and a dump that follow hold no escape character. -/
theorem log_init_plain_witness :
    (log_init LogState.initial LOG_LEVEL_DEBUG 0).1.colors = ⟨[], [], [], [], []⟩
    ∧ ESC ∉ log_print (log_init LogState.initial LOG_LEVEL_DEBUG 0).1 id (some "a.c".toList) 7
        (some ⟨"E/x\n".toList, NUL⟩)
    ∧ ∃ out, log_buffer (log_init LogState.initial LOG_LEVEL_DEBUG 0).1 id (some [27, 65]) 2
        none = some out ∧ ESC ∉ out :=
  have h := log_init_plain LogState.initial LOG_LEVEL_DEBUG rfl
  ⟨h.1,
   h.2.2.1 id (some "a.c".toList) 7 (some ⟨"E/x\n".toList, NUL⟩)
     (by intro f hf; cases hf; decide) (by intro s hs; cases hs; decide),
   h.2.2.2 id [27, 65] 2 none (by decide) (by intro s hs; cases hs)⟩

/-! ## `log_print` -/

/-- C6: for a message without conversion directives, `log_print` writes
nothing when the file is absent, when the message is absent, or when
`log_enabled` blocks the message; otherwise it writes the colour of the
severity `log_enabled` reports, `[file:line]`, the message as it is, and the
reset code, with nothing after it. -/
theorem log_print_text (st : LogState) (va : List Char → List Char)
    (file : Option (List Char)) (line : Int) (fmt : Option CString) (l0 : Nat)
    (hdir : ∀ s, fmt = some s → '%' ∉ s.chars) :
    (file = none → log_print st va file line fmt = [])
    ∧ (fmt = none → log_print st va file line fmt = [])
    ∧ ((log_enabled st fmt l0).1 = 0 → log_print st va file line fmt = [])
    ∧ (∀ f s, file = some f → fmt = some s → (log_enabled st fmt l0).1 ≠ 0 →
        log_print st va file line fmt
          = st.colors.get (log_enabled st fmt l0).2 ++ "[".toList ++ f ++ ":".toList
              ++ fmt_d line ++ "]".toList ++ s.chars ++ st.colors.get COLOR_RESET) := by
  refine ⟨?_, ?_, ?_, ?_⟩
  · rintro rfl
    simp only [log_print]
    split_ifs <;> rfl
  · rintro rfl
    simp [log_print, log_enabled]
  · intro h0
    cases fmt with
    | none => simp [log_print, log_enabled]
    | some s =>
      rw [log_enabled_some_init st s l0 LOG_LEVEL_ERR] at h0
      simp [log_print, h0]
  · rintro f s rfl rfl h1
    rw [log_enabled_some_init st s l0 LOG_LEVEL_ERR] at h1 ⊢
    have hv : vfprintf va s.chars = s.chars := by
      simp [vfprintf, hdir s rfl]
    simp [log_print, h1, hv]

/-- A warning printed in colour at the threshold INFO, and the same message
blocked at the threshold ERROR. -/
theorem log_print_text_witness :
    log_print ⟨LOG_LEVEL_INFO, ansi_colors⟩ id (some "a.c".toList) 12
        (some ⟨"W/bad thing\n".toList, NUL⟩)
      = "\x1b[35m[a.c:12]W/bad thing\n\x1b[0m".toList
    ∧ log_print ⟨LOG_LEVEL_ERROR, ansi_colors⟩ id (some "a.c".toList) 12
        (some ⟨"W/bad thing\n".toList, NUL⟩) = [] :=
  ⟨(log_print_text ⟨LOG_LEVEL_INFO, ansi_colors⟩ id (some "a.c".toList) 12
      (some ⟨"W/bad thing\n".toList, NUL⟩) 0
      (by intro s hs; cases hs; decide)).2.2.2 _ _ rfl rfl (by decide),
   (log_print_text ⟨LOG_LEVEL_ERROR, ansi_colors⟩ id (some "a.c".toList) 12
      (some ⟨"W/bad thing\n".toList, NUL⟩) 0
      (by intro s hs; cases hs; decide)).2.2.1 (by decide)⟩

/-! ## `log_buffer`: when the dump is written -/

/-- The text of `log_buffer` when the first `n` bytes are there. -/
theorem log_buffer_eq (st : LogState) (va : List Char → List Char) (mem : List Nat)
    (n : Nat) (fmt : Option CString) (h : n ≤ mem.length) :
    log_buffer st va (some mem) n fmt
      = match user_log st va fmt with
        | none => some []
        | some user =>
          some (user ++ table_preamble ++ (spec_rows mem n).flatten
            ++ (table_rule ++ st.colors.get COLOR_RESET ++ "\n".toList)) := by
  simp only [log_buffer, data_rows_eq mem n h]

theorem user_log_none_iff (st : LogState) (va : List Char → List Char)
    (fmt : Option CString) :
    user_log st va fmt = none
      ↔ ∃ s, fmt = some s ∧ (log_enabled st (some s) LOG_LEVEL_DEBUG).1 = 0 := by
  cases fmt with
  | none => simp [user_log]
  | some s =>
    unfold user_log
    by_cases h : (log_enabled st (some s) LOG_LEVEL_DEBUG).1 = 0 <;> simp [h]

/-- C7: `log_buffer` writes nothing at all exactly when the buffer is
absent, or a message is given and `log_enabled` blocks it; a buffer dumped
with the message `W/msg` at the threshold ERROR gives no output; and a dump
that is not suppressed is written whenever its `buflen` bytes are there. -/
theorem log_buffer_silent_iff (st : LogState) (va : List Char → List Char)
    (buf : Option (List Nat)) (buflen : Nat) (fmt : Option CString) :
    (log_buffer st va buf buflen fmt = some []
      ↔ (buf = none
          ∨ ∃ s, fmt = some s ∧ (log_enabled st (some s) LOG_LEVEL_DEBUG).1 = 0))
    ∧ (∀ (c : Colors) (mem : List Nat) (past : Char),
        log_buffer ⟨LOG_LEVEL_ERROR, c⟩ va (some mem) buflen (some ⟨"W/msg".toList, past⟩)
          = some [])
    ∧ (∀ mem, buf = some mem → buflen ≤ mem.length →
        ∃ out, log_buffer st va buf buflen fmt = some out) := by
  refine ⟨?_, ?_, ?_⟩
  · cases buf with
    | none => simp [log_buffer]
    | some mem =>
      rw [← user_log_none_iff st va fmt]
      simp only [log_buffer]
      cases hu : user_log st va fmt with
      | none => simp
      | some user =>
        cases hd : data_rows mem buflen with
        | none => simp
        | some rows =>
          have hne := table_preamble_ne_nil user
            (rows.flatten ++ (table_rule ++ st.colors.get COLOR_RESET ++ "\n".toList))
          simp only [List.append_assoc] at hne ⊢
          simp [hne]
  · intro c mem past
    simp [log_buffer, user_log, log_enabled, CString.at, LOG_LEVEL_ERROR, LOG_LEVEL_WARNING]
  · rintro mem rfl hn
    rw [log_buffer_eq st va mem buflen fmt hn]
    cases user_log st va fmt <;> simp

/-- C8: with no message, `log_buffer` on a present buffer whose `n` bytes
are there always writes the dump: the text is not empty, starts with the
DEBUG colour followed by the table preamble, and is the same for every
threshold. -/
theorem log_buffer_no_message (st : LogState) (va : List Char → List Char)
    (mem : List Nat) (n : Nat) (h : n ≤ mem.length) :
    (∃ rest, log_buffer st va (some mem) n none
        = some (st.colors.get LOG_LEVEL_DEBUG ++ table_preamble ++ rest))
    ∧ log_buffer st va (some mem) n none ≠ some []
    ∧ (∀ T, log_buffer ⟨T, st.colors⟩ va (some mem) n none
        = log_buffer st va (some mem) n none) := by
  have e : ∀ st' : LogState, log_buffer st' va (some mem) n none
      = some (st'.colors.get LOG_LEVEL_DEBUG ++ table_preamble ++ (spec_rows mem n).flatten
          ++ (table_rule ++ st'.colors.get COLOR_RESET ++ "\n".toList)) := by
    intro st'
    rw [log_buffer_eq st' va mem n none h]
    rfl
  refine ⟨⟨_, by rw [e st, List.append_assoc]⟩, ?_, ?_⟩
  · rw [e st, List.append_assoc]
    intro hc
    exact table_preamble_ne_nil _ _ (Option.some.inj hc)
  · intro T
    rw [e st, e ⟨T, st.colors⟩]

/-- A three-byte buffer dumped without a message at the threshold ERROR, in
colour. -/
theorem log_buffer_no_message_witness :
    (∃ rest, log_buffer ⟨LOG_LEVEL_ERROR, ansi_colors⟩ id (some [1, 2, 3]) 3 none
        = some (ansi_colors.get LOG_LEVEL_DEBUG ++ table_preamble ++ rest))
    ∧ log_buffer ⟨LOG_LEVEL_ERROR, ansi_colors⟩ id (some [1, 2, 3]) 3 none ≠ some [] :=
  have h := log_buffer_no_message ⟨LOG_LEVEL_ERROR, ansi_colors⟩ id [1, 2, 3] 3 (by decide)
  ⟨h.1, h.2.1⟩

/-! ## `log_buffer`: the data rows -/

theorem spec_row_line (bytes : List Nat) (line_number : Nat) :
    ∃ text, spec_row bytes line_number = text ++ ['\n'] ∧ '\n' ∉ text := by
  refine ⟨row_address line_number ++ (spec_hex bytes
    ++ List.replicate (48 - (spec_hex bytes).length) ' ' ++ [' '] ++ bytes.map spec_ascii),
    by simp [spec_row, spec_row_body], ?_⟩
  intro hm
  have hp : ∀ c : Char, 0x20 ≤ c.toNat ∧ c.toNat < 0x7f → c ≠ '\n' := by
    rintro c hc rfl
    have e : ('\n' : Char).toNat = 10 := by decide
    omega
  simp only [row_address, List.mem_append, List.mem_cons, List.mem_singleton,
    List.not_mem_nil, or_false, String.toList, List.mem_map] at hm
  rcases hm with ((hm | hm) | hm) | (((hm | hm) | hm) | hm)
  · rcases hm with hm | hm <;> exact absurd hm (by decide)
  · exact hp _ (fmt_x_print _ _ _ hm) rfl
  · rcases hm with hm | hm <;> exact absurd hm (by decide)
  · exact hp _ (spec_hex_print _ _ hm) rfl
  · exact absurd (List.mem_replicate.mp hm).2 (by decide)
  · exact absurd hm (by decide)
  · obtain ⟨b, _, hb⟩ := hm
    exact hp _ (spec_ascii_print b) hb

/-- C9: a dump of `n` bytes that is not suppressed holds exactly
`ceil(n / 16)` data rows, each one line of text: `n / 16` rows of 16 bytes,
then, exactly when `n % 16 ≠ 0`, one row of `n % 16` bytes; for `n = 20`
these are row 0 with 16 bytes and row 1 with 4 bytes, whose hex field ends
in 36 blanks. -/
theorem log_buffer_rows (st : LogState) (va : List Char → List Char) (mem : List Nat)
    (n : Nat) (fmt : Option CString) (user : List Char) (h : n ≤ mem.length)
    (hu : user_log st va fmt = some user) :
    data_rows mem n = some (spec_rows mem n)
    ∧ log_buffer st va (some mem) n fmt
        = some (user ++ table_preamble ++ (spec_rows mem n).flatten
            ++ (table_rule ++ st.colors.get COLOR_RESET ++ "\n".toList))
    ∧ (spec_rows mem n).length = (n + 15) / 16
    ∧ (spec_rows mem n).length = n / 16 + (if n % 16 ≠ 0 then 1 else 0)
    ∧ (∀ row ∈ spec_rows mem n, ∃ text, row = text ++ ['\n'] ∧ '\n' ∉ text)
    ∧ (∀ i, i < n / 16 → ((mem.drop (16 * i)).take 16).length = 16)
    ∧ ((mem.drop (16 * (n / 16))).take (n % 16)).length = n % 16
    ∧ (n = 0 → spec_rows mem n = [])
    ∧ (n = 20 →
        spec_rows mem n = [spec_row (mem.take 16) 0, spec_row ((mem.drop 16).take 4) 1]
        ∧ (mem.take 16).length = 16 ∧ ((mem.drop 16).take 4).length = 4
        ∧ spec_row_body ((mem.drop 16).take 4)
            = spec_hex ((mem.drop 16).take 4) ++ List.replicate 36 ' ' ++ [' ']
              ++ ((mem.drop 16).take 4).map spec_ascii ++ ['\n']) := by
  refine ⟨data_rows_eq mem n h, ?_, spec_rows_length mem n, ?_, ?_, ?_, ?_, ?_, ?_⟩
  · rw [log_buffer_eq st va mem n fmt h, hu]
  · unfold spec_rows
    by_cases hr : n % 16 ≠ 0 <;> simp [hr]
  · intro row hrow
    unfold spec_rows at hrow
    rcases List.mem_append.mp hrow with hrow | hrow
    · obtain ⟨i, _, rfl⟩ := List.mem_map.mp hrow
      exact spec_row_line _ _
    · split_ifs at hrow
      · rw [List.mem_singleton.mp hrow]
        exact spec_row_line _ _
      · simp at hrow
  · intro i hi
    simp only [List.length_take, List.length_drop]
    omega
  · simp only [List.length_take, List.length_drop]
    omega
  · rintro rfl
    rfl
  · rintro rfl
    have hl : (spec_hex ((mem.drop 16).take 4)).length = 12 := by
      rw [spec_hex_length]
      simp only [List.length_take, List.length_drop]
      omega
    refine ⟨?_, ?_, ?_, ?_⟩
    · simp [spec_rows, List.range_succ]
    · simp only [List.length_take]; omega
    · simp only [List.length_take, List.length_drop]; omega
    · simp only [spec_row_body, hl]

/-- A 20-byte buffer dumped with no message: two rows, the second with four
bytes. -/
theorem log_buffer_rows_witness :
    data_rows (List.range 20) 20
      = some [spec_row (List.range 16) 0, spec_row [16, 17, 18, 19] 1]
    ∧ spec_row [16, 17, 18, 19] 1
      = "0x0010: 10 11 12 13                                      ....\n".toList :=
  ⟨(log_buffer_rows LogState.initial id (List.range 20) 20 none [] (by decide) rfl).1,
   by decide⟩

/-! ## The layout of a data row -/

theorem spec_hex_digit_mem (d : Nat) (h : d < 16) :
    spec_hex_digit d ∈ "0123456789abcdef".toList := by
  interval_cases d <;> decide

theorem spec_hex_append (xs ys : List Nat) : spec_hex (xs ++ ys) = spec_hex xs ++ spec_hex ys := by
  simp [spec_hex]

/-- C10: for a row of `k` bytes, `1 ≤ k ≤ 16`, `print_line` writes after the
offset: each byte as two lowercase hexadecimal digits and one space, blanks
up to 48 characters, one more space, the `k` ASCII characters (`.` for a
byte below 0x20 or at least 0x7f, else the byte itself) and the end of line;
so the ASCII field starts 49 characters after the offset in every row, and
in a full row two spaces stand between the last hex digit and the ASCII
field. -/
theorem print_line_layout (buf : List Nat) (k line_number : Nat) (h1 : 1 ≤ k)
    (h16 : k ≤ 16) (hbuf : k ≤ buf.length) :
    print_line buf k line_number
      = some (row_address line_number ++ (spec_hex (buf.take k)
          ++ List.replicate (48 - 3 * k) ' ' ++ [' '] ++ (buf.take k).map spec_ascii
          ++ ['\n']))
    ∧ spec_hex (buf.take k)
      = ((buf.take k).map (fun b =>
          [spec_hex_digit (b % 256 / 16), spec_hex_digit (b % 256 % 16), ' '])).flatten
    ∧ (∀ b, spec_hex_digit (b % 256 / 16) ∈ "0123456789abcdef".toList
        ∧ spec_hex_digit (b % 256 % 16) ∈ "0123456789abcdef".toList)
    ∧ (spec_hex (buf.take k)).length = 3 * k
    ∧ (spec_hex (buf.take k) ++ List.replicate (48 - 3 * k) ' ' ++ [' ']).length = 49
    ∧ ((buf.take k).map spec_ascii).length = k
    ∧ (∀ b, spec_ascii b
        = if b % 256 < 0x20 ∨ b % 256 ≥ 0x7f then '.' else Char.ofNat (b % 256))
    ∧ (k = 16 → ∀ init b, buf.take k = init ++ [b] →
        print_line buf k line_number
          = some (row_address line_number ++ (spec_hex init
              ++ [spec_hex_digit (b % 256 / 16), spec_hex_digit (b % 256 % 16), ' ', ' ']
              ++ (buf.take k).map spec_ascii ++ ['\n']))) := by
  have hlen : (spec_hex (buf.take k)).length = 3 * k := by
    rw [spec_hex_length, List.length_take, Nat.min_eq_left hbuf]
  have hp : print_line buf k line_number
      = some (row_address line_number ++ (spec_hex (buf.take k)
          ++ List.replicate (48 - 3 * k) ' ' ++ [' '] ++ (buf.take k).map spec_ascii
          ++ ['\n'])) := by
    rw [print_line_eq buf k line_number h16 hbuf]
    simp only [spec_row, spec_row_body, hlen]
  refine ⟨hp, rfl, ?_, hlen, ?_, ?_, fun _ => rfl, ?_⟩
  · intro b
    exact ⟨spec_hex_digit_mem _ (by omega), spec_hex_digit_mem _ (by omega)⟩
  · simp only [List.length_append, hlen, List.length_replicate, List.length_singleton]
    omega
  · simp only [List.length_map, List.length_take]
    omega
  · rintro rfl init b hib
    rw [hp, hib, spec_hex_append]
    simp [spec_hex, spec_hex_byte]

/-- The row of the four bytes 0x41, 0x00, 0x7f, 0xff at offset 0x20. -/
theorem print_line_layout_witness :
    print_line [0x41, 0x00, 0x7f, 0xff] 4 2
      = some "0x0020: 41 00 7f ff                                      A...\n".toList :=
  (print_line_layout [0x41, 0x00, 0x7f, 0xff] 4 2 (by decide) (by decide) (by decide)).1

/-! ## The severity triggers -/

theorem handler_level (SIGRTMIN : Int) (k : Nat) (hk : k < 2 ^ 32) :
    ((SIGRTMIN + (k : Int) - SIGRTMIN) % 2 ^ 32).toNat = k := by
  have e : SIGRTMIN + (k : Int) - SIGRTMIN = (k : Int) := by ring
  rw [e]
  have h2 : ((k : Int) % 2 ^ 32) = (k : Int) := by
    apply Int.emod_eq_of_lt
    · exact Int.natCast_nonneg k
    · exact_mod_cast hk
  rw [h2]
  exact Int.toNat_natCast k

/-- C15: for each of the four severities, `log_level_handler` called with
`SIGRTMIN` plus the severity sets the threshold to that severity, whatever
it was, and leaves the colour table as it was. -/
theorem log_level_handler_sets (SIGRTMIN : Int) (st : LogState) :
    log_level_handler SIGRTMIN st (SIGRTMIN + (LOG_LEVEL_ERROR : Nat))
        = ⟨LOG_LEVEL_ERROR, st.colors⟩
    ∧ log_level_handler SIGRTMIN st (SIGRTMIN + (LOG_LEVEL_WARNING : Nat))
        = ⟨LOG_LEVEL_WARNING, st.colors⟩
    ∧ log_level_handler SIGRTMIN st (SIGRTMIN + (LOG_LEVEL_INFO : Nat))
        = ⟨LOG_LEVEL_INFO, st.colors⟩
    ∧ log_level_handler SIGRTMIN st (SIGRTMIN + (LOG_LEVEL_DEBUG : Nat))
        = ⟨LOG_LEVEL_DEBUG, st.colors⟩ := by
  refine ⟨?_, ?_, ?_, ?_⟩
  · simp only [log_level_handler, handler_level SIGRTMIN LOG_LEVEL_ERROR (by decide)]
  · simp only [log_level_handler, handler_level SIGRTMIN LOG_LEVEL_WARNING (by decide)]
  · simp only [log_level_handler, handler_level SIGRTMIN LOG_LEVEL_INFO (by decide)]
  · simp only [log_level_handler, handler_level SIGRTMIN LOG_LEVEL_DEBUG (by decide)]

/-! ## `log_init` with a wrong level -/

/-- C16 as stated fails: `log_init(7, 1)` at program start changes the
colour table. -/
theorem log_init_wrong_level_colors :
    ¬ ((log_init LogState.initial 7 1).1.colors = LogState.initial.colors) := by
  decide

/-- C16 (amended): `log_init` with a level that is none of the four
severities writes the one error line and leaves the threshold as it was for
every `colorful`; it leaves the colour table as it was when `colorful = 0`,
and when `colorful ≠ 0` it stores the five escape sequences as it does for a
valid level. -/
theorem log_init_wrong_level (st : LogState) (level : Nat) (colorful : Int)
    (h : ¬ (level = LOG_LEVEL_ERROR ∨ level = LOG_LEVEL_WARNING ∨ level = LOG_LEVEL_INFO
        ∨ level = LOG_LEVEL_DEBUG)) :
    (log_init st level colorful).2
        = "E/Given log level is wrong, passed: ".toList ++ fmt_d (int_of_unsigned level)
          ++ "\n".toList
    ∧ (log_init st level colorful).1.log_level = st.log_level
    ∧ (colorful = 0 → (log_init st level colorful).1.colors = st.colors)
    ∧ (colorful ≠ 0 → (log_init st level colorful).1.colors = ansi_colors)
    ∧ (colorful ≠ 0 → ∀ valid, valid < LOG_LEVEL_ERR →
        (log_init st level colorful).1.colors = (log_init st valid colorful).1.colors) := by
  have h' : level ≥ LOG_LEVEL_ERR := by
    simp only [LOG_LEVEL_ERROR, LOG_LEVEL_WARNING, LOG_LEVEL_INFO, LOG_LEVEL_DEBUG,
      LOG_LEVEL_ERR] at h ⊢
    omega
  refine ⟨by simp [log_init, h'], by simp [log_init, h'], ?_, ?_, ?_⟩
  · intro hc
    simp [log_init, h', hc]
  · intro hc
    simp [log_init, h', hc]
  · intro hc valid hv
    have hv' : ¬ valid ≥ LOG_LEVEL_ERR := by omega
    simp [log_init, h', hv', hc]

/-- The level 7 at program start, without and with colours. -/
theorem log_init_wrong_level_witness :
    (log_init LogState.initial 7 0).1.log_level = LOG_LEVEL_INFO
    ∧ (log_init LogState.initial 7 0).1.colors = LogState.initial.colors
    ∧ (log_init LogState.initial 7 1).1.log_level = LOG_LEVEL_INFO
    ∧ (log_init LogState.initial 7 1).1.colors = ansi_colors :=
  have h0 := log_init_wrong_level LogState.initial 7 0 (by decide)
  have h1 := log_init_wrong_level LogState.initial 7 1 (by decide)
  ⟨h0.2.1, h0.2.2.1 rfl, h1.2.1, h1.2.2.2.1 (by decide)⟩

/-! ## Reachable states -/

theorem Call.run_valid (SIGRTMIN : Int) (st : LogState) (c : Call)
    (h : st.log_level < LOG_LEVEL_ERR) : (Call.run SIGRTMIN st c).log_level < LOG_LEVEL_ERR := by
  cases c with
  | init level colorful =>
    simp only [Call.run, log_init]
    by_cases hl : level ≥ LOG_LEVEL_ERR
    · simp only [hl, if_true]
      exact h
    · simp only [hl, if_false]
      exact not_le.mp hl
  | trigger severity =>
    have hs : severity.val < 2 ^ 32 := lt_trans severity.isLt (by decide)
    simp only [Call.run, log_level_handler, handler_level SIGRTMIN _ hs, LOG_LEVEL_ERR]
    exact severity.isLt
  | print _ _ _ _ => exact h
  | buffer _ _ _ _ => exact h

theorem foldl_run_valid (SIGRTMIN : Int) (calls : List Call) : ∀ st : LogState,
    st.log_level < LOG_LEVEL_ERR →
    (calls.foldl (Call.run SIGRTMIN) st).log_level < LOG_LEVEL_ERR := by
  induction calls with
  | nil => intro st h; exact h
  | cons c rest ih =>
    intro st h
    exact ih _ (Call.run_valid SIGRTMIN st c h)

/-- C17: in every state reached from program start by a sequence of
`log_init` calls with any arguments, deliveries of the four severity
signals, `log_print` and `log_buffer` calls, the threshold is one of ERROR,
WARNING, INFO, DEBUG, and every `E/` message is allowed. -/
theorem reachable_threshold_valid (SIGRTMIN : Int) (calls : List Call) :
    ((run_calls SIGRTMIN calls).log_level = LOG_LEVEL_ERROR
      ∨ (run_calls SIGRTMIN calls).log_level = LOG_LEVEL_WARNING
      ∨ (run_calls SIGRTMIN calls).log_level = LOG_LEVEL_INFO
      ∨ (run_calls SIGRTMIN calls).log_level = LOG_LEVEL_DEBUG)
    ∧ ∀ (rest : List Char) (past : Char) (l0 : Nat),
        log_enabled (run_calls SIGRTMIN calls) (some ⟨'E' :: '/' :: rest, past⟩) l0
          = (1, LOG_LEVEL_ERROR) := by
  have h := foldl_run_valid SIGRTMIN calls LogState.initial (by decide)
  constructor
  · have h' : (run_calls SIGRTMIN calls).log_level < LOG_LEVEL_ERR := h
    simp only [LOG_LEVEL_ERROR, LOG_LEVEL_WARNING, LOG_LEVEL_INFO, LOG_LEVEL_DEBUG,
      LOG_LEVEL_ERR] at h' ⊢
    omega
  · intro rest past l0
    simp [log_enabled, CString.at, LOG_LEVEL_ERROR]

/-! ## Monotonicity of `log_enabled` -/

/-- C19: if `log_enabled` allows a message at a threshold it allows it at
every threshold that is at least as large, and the severity it reports is
the same at every threshold. -/
theorem log_enabled_mono (st st' : LogState) (fmt : Option CString) (l0 : Nat)
    (h : st.log_level ≤ st'.log_level) :
    ((log_enabled st fmt l0).1 = 1 → (log_enabled st' fmt l0).1 = 1)
    ∧ (∀ st'' : LogState, (log_enabled st'' fmt l0).2 = (log_enabled st fmt l0).2) := by
  cases fmt with
  | none => simp [log_enabled]
  | some s =>
    have key : ∀ (T : Nat) (lvl : Nat),
        ((if lvl ≤ T then ((1 : Int), lvl) else (0, lvl)).1 = 1 ↔ lvl ≤ T)
        ∧ (if lvl ≤ T then ((1 : Int), lvl) else (0, lvl)).2 = lvl := by
      intro T lvl
      by_cases hl : lvl ≤ T <;> simp [hl]
    simp only [log_enabled]
    by_cases h1 : s.at 1 = '/'
    · simp only [h1, ne_eq, not_true_eq_false, if_false]
      split
      · simp
      · rename_i lvl _
        refine ⟨?_, ?_⟩
        · intro ha
          exact ((key st'.log_level lvl).1).mpr
            (le_trans (((key st.log_level lvl).1).mp ha) h)
        · intro st''
          rw [(key st''.log_level lvl).2, (key st.log_level lvl).2]
    · simp [h1]

/-- An `I/` message passes at INFO and so at DEBUG, with the same
severity. -/
theorem log_enabled_mono_witness :
    (log_enabled ⟨LOG_LEVEL_DEBUG, ansi_colors⟩ (some ⟨"I/x".toList, NUL⟩) 0).1 = 1
    ∧ (log_enabled ⟨LOG_LEVEL_ERROR, ansi_colors⟩ (some ⟨"I/x".toList, NUL⟩) 0).2
      = (log_enabled ⟨LOG_LEVEL_INFO, ansi_colors⟩ (some ⟨"I/x".toList, NUL⟩) 0).2 :=
  have h := log_enabled_mono ⟨LOG_LEVEL_INFO, ansi_colors⟩ ⟨LOG_LEVEL_DEBUG, ansi_colors⟩
    (some ⟨"I/x".toList, NUL⟩) 0 (by decide)
  ⟨h.1 (by decide), h.2 ⟨LOG_LEVEL_ERROR, ansi_colors⟩⟩

/-! ## Bounds of the row arrays -/

theorem run_print_lines_append (xs ys : List (List Nat × Nat × Nat)) :
    run_print_lines (xs ++ ys)
      = match run_print_lines xs with
        | none => none
        | some a =>
          match run_print_lines ys with
          | none => none
          | some b => some (a ++ b) := by
  induction xs with
  | nil =>
    simp only [List.nil_append, run_print_lines]
    cases run_print_lines ys <;> simp
  | cons x xs ih =>
    obtain ⟨buf, k, ln⟩ := x
    rw [List.cons_append]
    simp only [run_print_lines]
    rw [ih]
    cases print_line buf k ln <;> cases run_print_lines xs <;> cases run_print_lines ys <;> rfl

theorem whole_lines_calls (k : Nat) : ∀ (buf : List Nat) (line_number : Nat),
    whole_lines k buf line_number
      = match run_print_lines ((List.range k).map
          (fun i => (buf.drop (LOG_LINE_SIZE * i), LOG_LINE_SIZE, line_number + i))) with
        | none => none
        | some rows => some (rows, buf.drop (LOG_LINE_SIZE * k)) := by
  induction k with
  | zero => intro buf line_number; simp [whole_lines, run_print_lines]
  | succ k ih =>
    intro buf line_number
    have hcalls : List.map (fun i => (List.drop (LOG_LINE_SIZE * i)
          (List.drop LOG_LINE_SIZE buf), LOG_LINE_SIZE, line_number + 1 + i)) (List.range k)
        = List.map ((fun i => (List.drop (LOG_LINE_SIZE * i) buf, LOG_LINE_SIZE,
            line_number + i)) ∘ Nat.succ) (List.range k) := by
      apply List.map_congr_left
      intro i _
      have a1 : List.drop (LOG_LINE_SIZE * i) (List.drop LOG_LINE_SIZE buf)
          = List.drop (LOG_LINE_SIZE * i.succ) buf := by
        rw [List.drop_drop]; congr 1; simp only [LOG_LINE_SIZE]; omega
      have a2 : line_number + 1 + i = line_number + i.succ := by omega
      simp only [Function.comp, a1, a2]
    have hdrop : List.drop (LOG_LINE_SIZE * k) (List.drop LOG_LINE_SIZE buf)
        = List.drop (LOG_LINE_SIZE * (k + 1)) buf := by
      rw [List.drop_drop]; congr 1; simp only [LOG_LINE_SIZE]; omega
    rw [List.range_succ_eq_map, List.map_cons, List.map_map, ← hcalls]
    simp only [whole_lines, run_print_lines, ih, Nat.mul_zero, List.drop_zero, Nat.add_zero,
      hdrop]
    cases print_line buf LOG_LINE_SIZE line_number with
    | none => rfl
    | some row =>
      cases run_print_lines (List.map (fun i => (List.drop (LOG_LINE_SIZE * i)
          (List.drop LOG_LINE_SIZE buf), LOG_LINE_SIZE, line_number + 1 + i))
          (List.range k)) with
      | none => rfl
      | some rows => rfl

/-- The rows of `log_buffer` are the lines of its `print_line` calls, in
order. -/
theorem data_rows_calls (buf : List Nat) (buflen : Nat) :
    data_rows buf buflen = run_print_lines (print_line_calls buf buflen) := by
  simp only [data_rows, print_line_calls, whole_lines_calls, Nat.zero_add,
    run_print_lines_append]
  cases run_print_lines (List.map (fun i => (List.drop (LOG_LINE_SIZE * i) buf,
      LOG_LINE_SIZE, i)) (List.range (buflen / LOG_LINE_SIZE))) with
  | none => rfl
  | some rows =>
    by_cases hr : buflen % LOG_LINE_SIZE ≠ 0
    · simp only [hr, if_true, run_print_lines, ne_eq, not_false_eq_true]
      cases print_line (List.drop (LOG_LINE_SIZE * (buflen / LOG_LINE_SIZE)) buf)
          (buflen % LOG_LINE_SIZE) (buflen / LOG_LINE_SIZE) with
      | none => rfl
      | some row => rfl
    · simp only [hr, if_false, run_print_lines, List.append_nil]

theorem print_line_calls_sizes (buf : List Nat) (buflen : Nat) :
    ∀ call ∈ print_line_calls buf buflen,
      1 ≤ call.2.1 ∧ call.2.1 ≤ LOG_LINE_SIZE
      ∧ (buflen ≤ buf.length → call.2.1 ≤ call.1.length) := by
  intro call hc
  unfold print_line_calls at hc
  rcases List.mem_append.mp hc with hc | hc
  · obtain ⟨i, hi, rfl⟩ := List.mem_map.mp hc
    have hi' : i < buflen / LOG_LINE_SIZE := List.mem_range.mp hi
    refine ⟨by simp [LOG_LINE_SIZE], le_refl _, ?_⟩
    intro hlen
    simp only [LOG_LINE_SIZE, List.length_drop] at hi' ⊢
    omega
  · split_ifs at hc with hr
    · rw [List.mem_singleton.mp hc]
      simp only [LOG_LINE_SIZE, List.length_drop] at hr ⊢
      refine ⟨by omega, by omega, ?_⟩
      intro hlen
      omega
    · simp at hc

theorem getD_append_replicate (xs : List Char) (m k : Nat) (hk : k = xs.length)
    (hm : 1 ≤ m) : (xs ++ List.replicate m NUL).getD k ' ' = NUL := by
  subst hk
  obtain ⟨m', rfl⟩ : ∃ m', m = m' + 1 := ⟨m - 1, by omega⟩
  rw [List.replicate_succ, List.getD_eq_getElem?_getD, List.getElem?_append_right (le_refl _)]
  simp

/-- C20: `log_buffer` calls `print_line` only with a row size from 1 to 16
and with that many bytes left; for such a row size every store of
`print_line` (four bytes at the hex offset `3 * j`, one byte at the
character offset `j`, `j` below the row size) stays inside `hex_data` (49
bytes) and `char_data` (17 bytes), both arrays end up terminated right
after their data, and no call takes the out-of-bounds branch. -/
theorem print_line_bounds (mem : List Nat) (buflen : Nat) (h : buflen ≤ mem.length) :
    data_rows mem buflen = run_print_lines (print_line_calls mem buflen)
    ∧ (∀ call ∈ print_line_calls mem buflen,
        1 ≤ call.2.1 ∧ call.2.1 ≤ LOG_LINE_SIZE ∧ call.2.1 ≤ call.1.length)
    ∧ (∀ (buf : List Nat) (k line_number : Nat), 1 ≤ k → k ≤ LOG_LINE_SIZE → k ≤ buf.length →
        (∀ j, j < k → ∀ (hex_data char_data d4 d1 : List Char),
            hex_data.length = LOG_HEX_DATA_SIZE + 1 →
            char_data.length = LOG_CHAR_DATA_SIZE + 1 →
            d4.length = 4 → d1.length = 1 →
            (store hex_data (j * LOG_SINGLE_HEX_DATA_SIZE) d4).isSome
            ∧ (store char_data j d1).isSome)
        ∧ (∀ b : Nat, (fmt_x 2 (b % 256) ++ [' ', NUL]).length = 4)
        ∧ (∃ hex_data char_data,
            print_line_fill k buf 0 (List.replicate (LOG_HEX_DATA_SIZE + 1) NUL)
                (List.replicate (LOG_CHAR_DATA_SIZE + 1) NUL) = some (hex_data, char_data)
            ∧ hex_data.length = LOG_HEX_DATA_SIZE + 1
            ∧ char_data.length = LOG_CHAR_DATA_SIZE + 1
            ∧ LOG_SINGLE_HEX_DATA_SIZE * k ≤ LOG_HEX_DATA_SIZE
            ∧ k ≤ LOG_CHAR_DATA_SIZE
            ∧ hex_data.getD (LOG_SINGLE_HEX_DATA_SIZE * k) ' ' = NUL
            ∧ char_data.getD k ' ' = NUL)
        ∧ (print_line buf k line_number).isSome)
    ∧ (data_rows mem buflen).isSome
    ∧ (∀ (st : LogState) (va : List Char → List Char) (fmt : Option CString),
        (log_buffer st va (some mem) buflen fmt).isSome) := by
  refine ⟨data_rows_calls mem buflen, ?_, ?_, ?_, ?_⟩
  · intro call hc
    have hs := print_line_calls_sizes mem buflen call hc
    exact ⟨hs.1, hs.2.1, hs.2.2 h⟩
  · intro buf k line_number h1 h16 hbuf
    simp only [LOG_LINE_SIZE] at h16
    refine ⟨?_, ?_, ?_, ?_⟩
    · intro j hj hex_data char_data d4 d1 hh hc h4 h1'
      simp only [LOG_HEX_DATA_SIZE, LOG_SINGLE_HEX_DATA_SIZE, LOG_LINE_SIZE,
        LOG_CHAR_DATA_SIZE] at hh hc ⊢
      constructor
      · have hle : j * 3 + d4.length ≤ hex_data.length := by omega
        simp [store, hle]
      · have hle : j + d1.length ≤ char_data.length := by omega
        simp [store, hle]
    · intro b
      rw [fmt_x_byte _ (Nat.mod_lt _ (by decide))]
      rfl
    · have hfill : print_line_fill k buf 0 (List.replicate (LOG_HEX_DATA_SIZE + 1) NUL)
          (List.replicate (LOG_CHAR_DATA_SIZE + 1) NUL)
          = some (spec_hex (buf.take k) ++ List.replicate (49 - 3 * (0 + k)) NUL,
              (buf.take k).map spec_ascii ++ List.replicate (17 - (0 + k)) NUL) :=
        print_line_fill_eq k buf 0 [] [] hbuf (by omega) rfl rfl
      have hlen : (spec_hex (buf.take k)).length = 3 * k := by
        rw [spec_hex_length, List.length_take, Nat.min_eq_left hbuf]
      have hlen2 : ((buf.take k).map spec_ascii).length = k := by
        rw [List.length_map, List.length_take, Nat.min_eq_left hbuf]
      refine ⟨_, _, hfill, ?_, ?_, ?_, ?_, ?_, ?_⟩
      · simp only [List.length_append, hlen, List.length_replicate, LOG_HEX_DATA_SIZE,
          LOG_SINGLE_HEX_DATA_SIZE, LOG_LINE_SIZE]
        omega
      · simp only [List.length_append, hlen2, List.length_replicate, LOG_CHAR_DATA_SIZE,
          LOG_LINE_SIZE]
        omega
      · simp only [LOG_HEX_DATA_SIZE, LOG_SINGLE_HEX_DATA_SIZE, LOG_LINE_SIZE]
        omega
      · simp only [LOG_CHAR_DATA_SIZE, LOG_LINE_SIZE]
        omega
      · exact getD_append_replicate _ _ _
          (by simp only [hlen, LOG_SINGLE_HEX_DATA_SIZE]) (by omega)
      · exact getD_append_replicate _ _ _ hlen2.symm (by omega)
    · rw [print_line_eq buf k line_number h16 hbuf]
      rfl
  · rw [data_rows_eq mem buflen h]
    rfl
  · intro st va fmt
    rw [log_buffer_eq st va mem buflen fmt h]
    cases user_log st va fmt <;> rfl

/-- A dump of 20 bytes: two `print_line` calls, of 16 and of 4 bytes, and
both return a line. -/
theorem print_line_bounds_witness :
    print_line_calls (List.range 20) 20
      = [(List.range 20, 16, 0), ([16, 17, 18, 19], 4, 1)]
    ∧ (data_rows (List.range 20) 20).isSome :=
  have h := print_line_bounds (List.range 20) 20 (by decide)
  ⟨by decide, h.2.2.2.1⟩

/-! ## The offset of a data row -/

theorem toDigitsCore_fuel (f : Nat) : ∀ (n : Nat) (ds : List Char) (F : Nat),
    n < 16 ^ f → 1 ≤ f → f ≤ F →
    Nat.toDigitsCore 16 F n ds = Nat.toDigitsCore 16 f n ds := by
  induction f with
  | zero => intro n ds F _ h1 _; omega
  | succ f ih =>
    intro n ds F hn _ hF
    obtain ⟨F', rfl⟩ : ∃ F', F = F' + 1 := ⟨F - 1, by omega⟩
    rw [Nat.toDigitsCore, Nat.toDigitsCore]
    by_cases hz : n / 16 = 0
    · simp [hz]
    · simp only [hz, if_false]
      have hf : 1 ≤ f := by
        rcases Nat.eq_zero_or_pos f with h0 | h0
        · subst h0
          simp at hn
          omega
        · exact h0
      have hn' : n / 16 < 16 ^ f := by
        rw [pow_succ] at hn
        exact Nat.div_lt_of_lt_mul (by rw [Nat.mul_comm]; exact hn)
      exact ih _ _ F' hn' hf (by omega)

theorem hex_value_spec_digit (d : Nat) (h : d < 16) : hex_value (spec_hex_digit d) = d := by
  interval_cases d <;> decide

/-- The conversion `%04x` of a value below 0x10000 is its four hexadecimal
digits. -/
theorem fmt_x_four (v : Nat) (h : v < 65536) :
    fmt_x 4 v = [spec_hex_digit (v / 4096), spec_hex_digit (v / 256 % 16),
      spec_hex_digit (v / 16 % 16), spec_hex_digit (v % 16)] := by
  unfold fmt_x Nat.toDigits
  by_cases h1 : v < 16
  · rw [toDigitsCore_fuel 1 v [] (v + 1) (by simpa using h1) (le_refl _) (by omega)]
    have a1 : v / 16 = 0 := by omega
    have a2 : v / 4096 = 0 := by omega
    have a3 : v / 256 = 0 := by omega
    have a4 : v % 16 = v := by omega
    simp [Nat.toDigitsCore, a1, a2, a3, a4, digitChar_eq_spec v h1]
    rfl
  · by_cases h2 : v < 256
    · rw [toDigitsCore_fuel 2 v [] (v + 1) (by simpa using h2) (by omega) (by omega)]
      have a1 : v / 16 ≠ 0 := by omega
      have a2 : v / 16 / 16 = 0 := by omega
      have a3 : v / 4096 = 0 := by omega
      have a4 : v / 256 = 0 := by omega
      have a5 : v / 16 % 16 = v / 16 := by omega
      simp [Nat.toDigitsCore, a1, a2, a3, a4, a5, digitChar_eq_spec (v / 16) (by omega),
        digitChar_eq_spec (v % 16) (by omega)]
      rfl
    · by_cases h3 : v < 4096
      · rw [toDigitsCore_fuel 3 v [] (v + 1) (by simpa using h3) (by omega) (by omega)]
        have a1 : v / 16 ≠ 0 := by omega
        have a2 : v / 16 / 16 ≠ 0 := by omega
        have a3 : v / 16 / 16 / 16 = 0 := by omega
        have a4 : v / 4096 = 0 := by omega
        have a5 : v / 16 / 16 % 16 = v / 256 % 16 := by omega
        simp [Nat.toDigitsCore, a1, a2, a3, a4, a5, digitChar_eq_spec (v / 256 % 16) (by omega),
          digitChar_eq_spec (v / 16 % 16) (by omega), digitChar_eq_spec (v % 16) (by omega)]
        rfl
      · rw [toDigitsCore_fuel 4 v [] (v + 1) (by simpa using h) (by omega) (by omega)]
        have a1 : v / 16 ≠ 0 := by omega
        have a2 : v / 16 / 16 ≠ 0 := by omega
        have a3 : v / 16 / 16 / 16 ≠ 0 := by omega
        have a4 : v / 16 / 16 / 16 / 16 = 0 := by omega
        have a5 : v / 16 / 16 % 16 = v / 256 % 16 := by omega
        have a6 : v / 16 / 16 / 16 % 16 = v / 4096 := by omega
        simp [Nat.toDigitsCore, a1, a2, a3, a4, a5, a6,
          digitChar_eq_spec (v / 4096) (by omega),
          digitChar_eq_spec (v / 256 % 16) (by omega),
          digitChar_eq_spec (v / 16 % 16) (by omega), digitChar_eq_spec (v % 16) (by omega)]

theorem spec_rows_get (mem : List Nat) (n i : Nat) (hi : i < (n + 15) / 16) :
    ∃ bytes, (spec_rows mem n)[i]? = some (spec_row bytes i) := by
  unfold spec_rows
  by_cases h1 : i < n / 16
  · refine ⟨(mem.drop (16 * i)).take 16, ?_⟩
    rw [List.getElem?_append_left (by simpa using h1)]
    simp [List.getElem?_map, List.getElem?_range h1]
  · have hr : n % 16 ≠ 0 := by omega
    have hq : i = n / 16 := by omega
    refine ⟨(mem.drop (16 * (n / 16))).take (n % 16), ?_⟩
    rw [List.getElem?_append_right (by simp; omega)]
    simp [hr, hq]

/-- C11 as stated fails: in a dump of 65552 bytes the row of index 4096
begins with five hexadecimal digits. -/
theorem row_address_five_digits :
    ∃ rows rest, data_rows (List.replicate 65552 0) 65552 = some rows
      ∧ rows[4096]? = some ("0x10000: ".toList ++ rest) := by
  obtain ⟨bytes, hb⟩ := spec_rows_get (List.replicate 65552 0) 65552 4096 (by decide)
  refine ⟨_, spec_row_body bytes, data_rows_eq _ _ (by rw [List.length_replicate]), ?_⟩
  rw [hb]
  have e : row_address 4096 = "0x10000: ".toList := by decide
  rw [spec_row, e]

/-- C11 (amended): in a dump of any length every data row of index
`i < 4096` begins with `0x`, exactly four lowercase hexadecimal digits whose
value is `i * 16`, and `: `. -/
theorem row_address_digits (mem : List Nat) (n i : Nat) (h : n ≤ mem.length)
    (hi : i < (n + 15) / 16) (hi4 : i < 4096) :
    ∃ rows bytes d3 d2 d1 d0,
      data_rows mem n = some rows
      ∧ rows[i]? = some ("0x".toList ++ [d3, d2, d1, d0] ++ ": ".toList ++ spec_row_body bytes)
      ∧ d3 ∈ "0123456789abcdef".toList ∧ d2 ∈ "0123456789abcdef".toList
      ∧ d1 ∈ "0123456789abcdef".toList ∧ d0 ∈ "0123456789abcdef".toList
      ∧ 4096 * hex_value d3 + 256 * hex_value d2 + 16 * hex_value d1 + hex_value d0
          = i * 16 := by
  obtain ⟨bytes, hb⟩ := spec_rows_get mem n i hi
  have hv : 16 * i < 65536 := by omega
  have hmod : (LOG_LINE_SIZE * i) % 2 ^ 32 = 16 * i := by
    simp only [LOG_LINE_SIZE]
    omega
  refine ⟨spec_rows mem n, bytes, spec_hex_digit (16 * i / 4096),
    spec_hex_digit (16 * i / 256 % 16), spec_hex_digit (16 * i / 16 % 16),
    spec_hex_digit (16 * i % 16), data_rows_eq mem n h, ?_,
    spec_hex_digit_mem _ (by omega), spec_hex_digit_mem _ (by omega),
    spec_hex_digit_mem _ (by omega), spec_hex_digit_mem _ (by omega), ?_⟩
  · rw [hb, spec_row, row_address, hmod, fmt_x_four _ hv]
  · rw [hex_value_spec_digit _ (by omega), hex_value_spec_digit _ (by omega),
      hex_value_spec_digit _ (by omega), hex_value_spec_digit _ (by omega)]
    omega

/-- The row of index 4095 in a dump of 65552 bytes, the dump whose next row
shows five digits, begins with `0x`, four digits of value `0xfff0`, `: `. -/
theorem row_address_digits_witness :
    ∃ rows bytes d3 d2 d1 d0,
      data_rows (List.replicate 65552 0) 65552 = some rows
      ∧ rows[4095]? = some ("0x".toList ++ [d3, d2, d1, d0] ++ ": ".toList ++ spec_row_body bytes)
      ∧ d3 ∈ "0123456789abcdef".toList ∧ d2 ∈ "0123456789abcdef".toList
      ∧ d1 ∈ "0123456789abcdef".toList ∧ d0 ∈ "0123456789abcdef".toList
      ∧ 4096 * hex_value d3 + 256 * hex_value d2 + 16 * hex_value d1 + hex_value d0
          = 4095 * 16 :=
  row_address_digits (List.replicate 65552 0) 65552 4095
    (by rw [List.length_replicate]) (by decide) (by decide)

/-! ## The table header -/

set_option maxRecDepth 100000 in
/-- C12 as stated fails: in the dump of one byte only two separator rows
stand before the data row, the third follows it, and the first column title
is not `address:`. -/
theorem log_buffer_header_text :
    ∃ out, log_buffer LogState.initial id (some [0x41]) 1 none = some out
      ∧ out.splitOn '\n'
        = ["------- -----------------------------------------------  ----------------".toList,
           "addres: hex:                                             ascii:".toList,
           "------- -----------------------------------------------  ----------------".toList,
           "0x0000: 41                                               A".toList,
           "------- -----------------------------------------------  ----------------".toList,
           []]
      ∧ ¬ ("address:".toList <:+: out) := by
  refine ⟨_, rfl, ?_, ?_⟩
  · decide
  · decide

/-- C12 (amended): whenever `log_buffer` writes a dump, what it writes
between the message and the data rows is a separator row, a title row whose
second and third titles are `hex:` and `ascii:` after a first column of 8
characters, and a second separator row; a third separator row, with the
reset code, closes the table after the last data row. -/
theorem log_buffer_header (st : LogState) (va : List Char → List Char) (mem : List Nat)
    (n : Nat) (fmt : Option CString) (user : List Char) (h : n ≤ mem.length)
    (hu : user_log st va fmt = some user) :
    ∃ first, first.length = LOG_ADDRESS_DATA_SIZE ∧ '\n' ∉ first
      ∧ log_buffer st va (some mem) n fmt
        = some (user
            ++ (table_rule ++ "\n".toList)
            ++ (first ++ "hex:".toList ++ List.replicate 45 ' ' ++ "ascii:".toList
                ++ "\n".toList)
            ++ (table_rule ++ "\n".toList)
            ++ (spec_rows mem n).flatten
            ++ (table_rule ++ st.colors.get COLOR_RESET ++ "\n".toList))
      ∧ table_rule
        = "------- -----------------------------------------------  ----------------".toList
      ∧ '\n' ∉ table_rule := by
  refine ⟨fmt_s_left LOG_ADDRESS_DATA_SIZE "addres:".toList, by decide, by decide, ?_,
    by decide, by decide⟩
  rw [log_buffer_eq st va mem n fmt h, hu]
  have e : table_preamble = (table_rule ++ "\n".toList)
      ++ (fmt_s_left LOG_ADDRESS_DATA_SIZE "addres:".toList ++ "hex:".toList
          ++ List.replicate 45 ' ' ++ "ascii:".toList ++ "\n".toList)
      ++ (table_rule ++ "\n".toList) := rfl
  simp only [e, List.append_assoc]

/-- The dump of one byte with the message `E/x` at program start. -/
theorem log_buffer_header_witness :
    ∃ first, first.length = LOG_ADDRESS_DATA_SIZE ∧ '\n' ∉ first
      ∧ log_buffer LogState.initial id (some [0x41]) 1 (some ⟨"E/x\n".toList, NUL⟩)
        = some ("E/x\n".toList
            ++ (table_rule ++ "\n".toList)
            ++ (first ++ "hex:".toList ++ List.replicate 45 ' ' ++ "ascii:".toList
                ++ "\n".toList)
            ++ (table_rule ++ "\n".toList)
            ++ (spec_rows [0x41] 1).flatten
            ++ (table_rule ++ LogState.initial.colors.get COLOR_RESET ++ "\n".toList))
      ∧ table_rule
        = "------- -----------------------------------------------  ----------------".toList
      ∧ '\n' ∉ table_rule :=
  log_buffer_header LogState.initial id [0x41] 1 (some ⟨"E/x\n".toList, NUL⟩) "E/x\n".toList
    (by decide) (by decide)

/-! ## Reading the dump back -/

theorem chunks_flatten (mem : List Nat) (q : Nat) :
    ((List.range q).map (fun i => (mem.drop (16 * i)).take 16)).flatten
      = mem.take (16 * q) := by
  induction q with
  | zero => simp
  | succ q ih =>
    rw [List.range_succ, List.map_append, List.flatten_append, ih]
    have e : 16 * (q + 1) = 16 * q + 16 := by omega
    rw [e, List.take_add]
    simp

theorem spec_rows_map_flatten {β : Type} (g : List Char → List β) (f : Nat → β)
    (hg : ∀ bytes line_number, bytes.length ≤ 16 → g (spec_row bytes line_number) = bytes.map f)
    (mem : List Nat) (n : Nat) :
    ((spec_rows mem n).map g).flatten = (mem.take n).map f := by
  have hwhole : List.map g (List.map (fun i => spec_row ((mem.drop (16 * i)).take 16) i)
        (List.range (n / 16)))
      = List.map (List.map f) (List.map (fun i => (mem.drop (16 * i)).take 16)
        (List.range (n / 16))) := by
    rw [List.map_map, List.map_map]
    apply List.map_congr_left
    intro i _
    simp only [Function.comp]
    exact hg _ _ (by simp only [List.length_take]; omega)
  have hn : mem.take n = mem.take (16 * (n / 16)) ++ (mem.drop (16 * (n / 16))).take (n % 16) := by
    rw [← List.take_add]
    congr 1
    omega
  unfold spec_rows
  rw [List.map_append, List.flatten_append, hwhole, ← List.map_flatten, chunks_flatten, hn,
    List.map_append]
  congr 1
  by_cases hr : n % 16 ≠ 0
  · simp only [hr, if_true, List.map_cons, List.map_nil, List.flatten_cons, List.flatten_nil,
      List.append_nil, ne_eq, not_false_eq_true]
    exact hg _ _ (by simp only [List.length_take]; omega)
  · have hr0 : n % 16 = 0 := by omega
    simp [hr0]

theorem dropWhile_append_all (p : Char → Bool) (xs ys : List Char)
    (h : ∀ c ∈ xs, p c = true) : (xs ++ ys).dropWhile p = ys.dropWhile p := by
  induction xs with
  | nil => rfl
  | cons x xs ih =>
    rw [List.cons_append, List.dropWhile_cons_of_pos (h x (by simp))]
    exact ih (fun c hc => h c (by simp [hc]))

theorem toDigitsCore_mem (b : Nat) : ∀ (fuel n : Nat) (ds : List Char),
    (∀ c ∈ ds, c ∈ "0123456789abcdef*".toList) →
    ∀ c ∈ Nat.toDigitsCore b fuel n ds, c ∈ "0123456789abcdef*".toList := by
  intro fuel
  induction fuel with
  | zero => intro n ds hds c hc; exact hds c (by simpa [Nat.toDigitsCore] using hc)
  | succ fuel ih =>
    intro n ds hds c hc
    have hds' : ∀ c ∈ Nat.digitChar (n % b) :: ds, c ∈ "0123456789abcdef*".toList := by
      intro c hc
      rcases List.mem_cons.mp hc with rfl | hc
      · exact digitChar_mem _
      · exact hds c hc
    rw [Nat.toDigitsCore] at hc
    by_cases hz : n / b = 0
    · simp only [hz, if_true] at hc
      exact hds' c hc
    · simp only [hz, if_false] at hc
      exact ih _ _ hds' c hc

theorem fmt_x_no_colon (w v : Nat) : ∀ c ∈ fmt_x w v, c ≠ ':' := by
  intro c hc
  have hm : c ∈ "0123456789abcdef*".toList := by
    rcases List.mem_append.mp hc with hc | hc
    · rw [(List.mem_replicate.mp hc).2]; decide
    · exact toDigitsCore_mem 16 _ _ [] (by simp) c hc
  rintro rfl
  exact absurd hm (by decide)

theorem row_body_spec_row (bytes : List Nat) (line_number : Nat) :
    row_body (spec_row bytes line_number) = spec_row_body bytes := by
  have e : spec_row bytes line_number
      = ("0x".toList ++ fmt_x 4 ((LOG_LINE_SIZE * line_number) % 2 ^ 32))
        ++ (':' :: ' ' :: spec_row_body bytes) := by
    simp [spec_row, row_address]
  rw [row_body, e, dropWhile_append_all]
  · rw [List.dropWhile_cons_of_neg (by simp)]
    rfl
  · intro c hc
    rcases List.mem_append.mp hc with hc | hc
    · have hc' : c = '0' ∨ c = 'x' := by simpa using hc
      rcases hc' with rfl | rfl <;> decide
    · simpa using fmt_x_no_colon _ _ c hc

theorem row_ascii_field_spec_row (bytes : List Nat) (line_number : Nat)
    (h : bytes.length ≤ 16) :
    row_ascii_field (spec_row bytes line_number) = bytes.map spec_ascii := by
  have hl : (spec_hex bytes ++ List.replicate (48 - (spec_hex bytes).length) ' '
      ++ [' ']).length = 49 := by
    simp only [List.length_append, spec_hex_length, List.length_replicate,
      List.length_singleton]
    omega
  rw [row_ascii_field, row_body_spec_row, spec_row_body, List.append_assoc,
    List.drop_left' hl, List.dropLast_concat]

theorem row_hex_field_spec_row (bytes : List Nat) (line_number : Nat)
    (h : bytes.length ≤ 16) :
    row_hex_field (spec_row bytes line_number)
      = spec_hex bytes ++ List.replicate (48 - (spec_hex bytes).length) ' ' := by
  have hl : (spec_hex bytes ++ List.replicate (48 - (spec_hex bytes).length) ' ').length
      = 48 := by
    simp only [List.length_append, spec_hex_length, List.length_replicate]
    omega
  rw [row_hex_field, row_body_spec_row, spec_row_body, List.append_assoc, List.append_assoc,
    List.take_left' hl]

theorem parse_hex_blank (m : Nat) : parse_hex (List.replicate m ' ') = [] := by
  match m with
  | 0 => rfl
  | 1 => rfl
  | 2 => rfl
  | m + 3 => simp [List.replicate_succ, parse_hex]

theorem spec_hex_digit_not_blank (d : Nat) : spec_hex_digit d ≠ ' ' := by
  intro h
  have hp := spec_hex_digit_print d
  by_cases hd : d < 16
  · have hm := spec_hex_digit_mem d hd
    rw [h] at hm
    exact absurd hm (by decide)
  · have e : spec_hex_digit d = '?' := by
      unfold spec_hex_digit
      exact List.getD_eq_default _ _ (by simp; omega)
    rw [e] at h
    exact absurd h (by decide)

theorem parse_hex_spec_hex (bytes : List Nat) (m : Nat) :
    parse_hex (spec_hex bytes ++ List.replicate m ' ') = bytes.map (fun b => b % 256) := by
  induction bytes with
  | nil => simpa [spec_hex] using parse_hex_blank m
  | cons b bs ih =>
    rw [spec_hex_cons]
    simp only [spec_hex_byte, List.cons_append, List.nil_append, parse_hex,
      spec_hex_digit_not_blank, if_false, List.map_cons, ih]
    rw [hex_value_spec_digit _ (by omega), hex_value_spec_digit _ (by omega)]
    congr 1
    omega

/-- C18: the data rows of a dump of `n` bytes, read back in output order:
the ASCII fields concatenated are `n` characters, the first `n` bytes
through the printable filter, and the two-digit hex values parsed from the
hex fields are the first `n` bytes. -/
theorem dump_round_trip (mem : List Nat) (n : Nat) (h : n ≤ mem.length) :
    ∃ rows, data_rows mem n = some rows
      ∧ (rows.map row_ascii_field).flatten = (mem.take n).map spec_ascii
      ∧ ((rows.map row_ascii_field).flatten).length = n
      ∧ (rows.map (fun row => parse_hex (row_hex_field row))).flatten
          = (mem.take n).map (fun b => b % 256)
      ∧ ((∀ b ∈ mem, b < 256) →
          (rows.map (fun row => parse_hex (row_hex_field row))).flatten = mem.take n) := by
  have ha : ((spec_rows mem n).map row_ascii_field).flatten = (mem.take n).map spec_ascii :=
    spec_rows_map_flatten row_ascii_field spec_ascii
      (fun bytes ln hb => row_ascii_field_spec_row bytes ln hb) mem n
  have hx : ((spec_rows mem n).map (fun row => parse_hex (row_hex_field row))).flatten
      = (mem.take n).map (fun b => b % 256) :=
    spec_rows_map_flatten (fun row => parse_hex (row_hex_field row)) (fun b => b % 256)
      (fun bytes ln hb => by
        simp only [row_hex_field_spec_row bytes ln hb, parse_hex_spec_hex]) mem n
  refine ⟨spec_rows mem n, data_rows_eq mem n h, ha, ?_, hx, ?_⟩
  · rw [ha, List.length_map, List.length_take, Nat.min_eq_left h]
  · intro hb
    rw [hx]
    have hid : ∀ b ∈ mem.take n, (fun b => b % 256) b = id b := by
      intro b hm
      exact Nat.mod_eq_of_lt (hb b (List.mem_of_mem_take hm))
    rw [List.map_congr_left hid, List.map_id]

/-- A dump of the 20 bytes 0x30 .. 0x43 read back. -/
theorem dump_round_trip_witness :
    ∃ rows, data_rows ((List.range 20).map (fun i => 0x30 + i)) 20 = some rows
      ∧ (rows.map row_ascii_field).flatten
          = (((List.range 20).map (fun i => 0x30 + i)).take 20).map spec_ascii
      ∧ ((rows.map row_ascii_field).flatten).length = 20
      ∧ (rows.map (fun row => parse_hex (row_hex_field row))).flatten
          = (((List.range 20).map (fun i => 0x30 + i)).take 20).map (fun b => b % 256)
      ∧ ((∀ b ∈ (List.range 20).map (fun i => 0x30 + i), b < 256) →
          (rows.map (fun row => parse_hex (row_hex_field row))).flatten
            = ((List.range 20).map (fun i => 0x30 + i)).take 20) :=
  dump_round_trip ((List.range 20).map (fun i => 0x30 + i)) 20 (by decide)

/-! ## `log_version` -/

/-- `strtok` when only the terminator is left. -/
theorem strtok_end (pre post : List Char) (start : Nat) (hs : start = pre.length) :
    strtok (pre ++ NUL :: post) start = some (none, pre ++ NUL :: post, start) := by
  subst hs
  have hk : (List.takeWhile (fun c => decide (c = '.')) (NUL :: post)) = [] := by
    rw [List.takeWhile_cons_of_neg (by decide)]
  unfold strtok
  simp only [List.drop_left, hk, List.length_nil, List.drop_zero, Nat.add_zero, if_true]

theorem spec_components_dot (Y : List Char) : spec_components ('.' :: Y) = spec_components Y := by
  simp [spec_components, List.splitOn]

theorem spec_components_dots (k : Nat) (Y : List Char) :
    spec_components (List.replicate k '.' ++ Y) = spec_components Y := by
  induction k with
  | zero => rfl
  | succ k ih => rw [List.replicate_succ, List.cons_append, spec_components_dot, ih]

theorem spec_components_token (tok Y : List Char) (hne : tok ≠ []) (htok : ∀ x ∈ tok, x ≠ '.') :
    spec_components (tok ++ '.' :: Y) = tok :: spec_components Y := by
  unfold spec_components List.splitOn
  rw [List.splitOnP_first _ _ (fun x hx => by simpa using htok x hx) '.' (by simp)]
  rw [List.filter_cons_of_pos (by simpa using hne)]

theorem spec_components_single (tok : List Char) (hne : tok ≠ []) (htok : ∀ x ∈ tok, x ≠ '.') :
    spec_components tok = [tok] := by
  unfold spec_components List.splitOn
  rw [List.splitOnP_eq_single _ _ (fun x hx => by simpa using htok x hx)]
  rw [List.filter_cons_of_pos (by simpa using hne)]
  rfl


theorem takeWhile_dots (S : List Char) :
    S.takeWhile (fun c => decide (c = '.')) = List.replicate (S.takeWhile (fun c => decide (c = '.'))).length '.' := by
  rw [List.eq_replicate_iff]
  refine ⟨rfl, fun b hb => ?_⟩
  simpa using (List.mem_takeWhile_imp hb)

theorem dropWhile_head (p : Char → Bool) (S : List Char) :
    S.dropWhile p = [] ∨ ∃ d Y, S.dropWhile p = d :: Y ∧ p d = false := by
  cases h : S.dropWhile p with
  | nil => exact Or.inl rfl
  | cons d Y =>
    refine Or.inr ⟨d, Y, rfl, ?_⟩
    have := List.head_dropWhile_not p S (by rw [h]; simp)
    simpa [h] using this

/-- A string that begins with a non-empty dot-free run has a component. -/
theorem spec_components_ne_nil (tok rest : List Char) (hne : tok ≠ [])
    (htok : ∀ x ∈ tok, x ≠ '.') :
    ∃ t cs, spec_components (tok ++ rest) = t :: cs := by
  have hsplit := (List.takeWhile_append_dropWhile (fun c => decide (c ≠ '.')) rest).symm
  have hr1 : ∀ x ∈ rest.takeWhile (fun c => decide (c ≠ '.')), x ≠ '.' := by
    intro x hx
    simpa using List.mem_takeWhile_imp hx
  have hall : ∀ x ∈ tok ++ rest.takeWhile (fun c => decide (c ≠ '.')), x ≠ '.' := by
    intro x hx
    rcases List.mem_append.1 hx with h | h
    · exact htok x h
    · exact hr1 x h
  have hne2 : tok ++ rest.takeWhile (fun c => decide (c ≠ '.')) ≠ [] := by
    simp [hne]
  rcases dropWhile_head (fun c => decide (c ≠ '.')) rest with h | ⟨d, Y, h, hd⟩
  · rw [hsplit, h, List.append_nil, spec_components_single _ hne2 hall]
    exact ⟨_, _, rfl⟩
  · have hd2 : d = '.' := by simpa using hd
    subst hd2
    rw [hsplit, h, ← List.append_assoc, spec_components_token _ _ hne2 hall]
    exact ⟨_, _, rfl⟩

theorem drop_add_of_drop (arr : List Char) (start : Nat) (X Y : List Char)
    (h : arr.drop start = X ++ Y) : arr.drop (start + X.length) = Y := by
  have := congrArg (List.drop X.length) h
  rw [List.drop_drop, List.drop_left] at this
  exact this

theorem drop_takeWhile_length (p : Char → Bool) (l : List Char) :
    l.drop (l.takeWhile p).length = l.dropWhile p := by
  induction l with
  | nil => rfl
  | cons x xs ih =>
    by_cases h : p x = true
    · rw [List.takeWhile_cons_of_pos h, List.dropWhile_cons_of_pos h]
      exact ih
    · rw [List.takeWhile_cons_of_neg h, List.dropWhile_cons_of_neg h]
      rfl

theorem take_takeWhile_length (p : Char → Bool) (l : List Char) :
    l.take (l.takeWhile p).length = l.takeWhile p := by
  induction l with
  | nil => rfl
  | cons x xs ih =>
    by_cases h : p x = true
    · rw [List.takeWhile_cons_of_pos h, List.length_cons, List.take_succ_cons, ih]
    · rw [List.takeWhile_cons_of_neg h]
      rfl

/-- What a call of `strtok` that returns a token has read: delimiters, the
token, and the delimiter or terminator after it; the next call scans from
the terminator, or from behind the delimiter. -/
theorem strtok_some (arr : List Char) (start : Nat) (tok arr1 : List Char) (save : Nat)
    (h : strtok arr start = some (some tok, arr1, save)) :
    ∃ k d rest, arr.drop start = List.replicate k '.' ++ (tok ++ d :: rest)
      ∧ tok ≠ [] ∧ (∀ x ∈ tok, x ≠ '.' ∧ x ≠ NUL)
      ∧ ((d = NUL ∧ arr1.drop save = NUL :: rest) ∨ (d = '.' ∧ arr1.drop save = rest)) := by
  have hS := (List.takeWhile_append_dropWhile (fun c => decide (c = '.')) (arr.drop start)).symm
  have hdots := takeWhile_dots (arr.drop start)
  generalize hk : (List.takeWhile (fun c => decide (c = '.')) (arr.drop start)).length = k
    at hdots
  have hdrop : (arr.drop start).drop k
      = (arr.drop start).dropWhile (fun c => decide (c = '.')) := by
    rw [← hk]
    exact drop_takeWhile_length _ _
  unfold strtok at h
  simp only [hk, hdrop] at h
  rcases dropWhile_head (fun c => decide (c = '.')) (arr.drop start) with h1 | ⟨c, S1, h1, hc⟩
  · rw [h1] at h
    simp at h
  · rw [h1] at h hS
    rw [hdots] at hS
    have hc2 : c ≠ '.' := by simpa using hc
    simp only at h
    by_cases hcn : c = NUL
    · simp [hcn] at h
    · simp only [hcn, if_false] at h
      have hT := (List.takeWhile_append_dropWhile (fun c => decide (c ≠ '.' ∧ c ≠ NUL))
        (c :: S1)).symm
      have htk : ∀ x ∈ (c :: S1).takeWhile (fun c => decide (c ≠ '.' ∧ c ≠ NUL)),
          x ≠ '.' ∧ x ≠ NUL := by
        intro x hx
        simpa using List.mem_takeWhile_imp hx
      have hne : (c :: S1).takeWhile (fun c => decide (c ≠ '.' ∧ c ≠ NUL)) ≠ [] := by
        rw [List.takeWhile_cons_of_pos (by simpa using And.intro hc2 hcn)]
        simp
      have hdrop2 := drop_takeWhile_length (fun c => decide (c ≠ '.' ∧ c ≠ NUL)) (c :: S1)
      have htake2 := take_takeWhile_length (fun c => decide (c ≠ '.' ∧ c ≠ NUL)) (c :: S1)
      rw [hdrop2, htake2] at h
      generalize (c :: S1).takeWhile (fun c => decide (c ≠ '.' ∧ c ≠ NUL)) = tk at *
      rcases dropWhile_head (fun c => decide (c ≠ '.' ∧ c ≠ NUL)) (c :: S1)
        with h2 | ⟨d, rest, h2, hd⟩
      · rw [h2] at h
        simp at h
      · rw [h2] at h hT
        rw [hT] at hS
        simp only at h
        by_cases hdn : d = NUL
        · simp only [hdn, if_true, Option.some.injEq, Prod.mk.injEq] at h
          obtain ⟨e1, e2, e3⟩ := h
          subst e1 e2 e3
          have e1 := drop_add_of_drop _ _ _ _ hS
          rw [List.length_replicate] at e1
          have e2 := drop_add_of_drop _ _ _ _ e1
          rw [hdn] at e2
          exact ⟨k, d, rest, hS, hne, htk, Or.inl ⟨hdn, e2⟩⟩
        · simp only [hdn, if_false, Option.some.injEq, Prod.mk.injEq] at h
          obtain ⟨e1, e2, e3⟩ := h
          subst e1 e2 e3
          have hd2 : d = '.' := by
            have : ¬ (d ≠ '.' ∧ d ≠ NUL) := by simpa using hd
            by_contra hne2
            exact this ⟨hne2, hdn⟩
          have e1 := drop_add_of_drop _ _ _ _ hS
          rw [List.length_replicate] at e1
          have e2 := drop_add_of_drop _ _ (tk ++ [d]) rest (by rw [e1]; simp)
          rw [List.length_append, List.length_singleton, ← Nat.add_assoc] at e2
          refine ⟨k, d, rest, hS, hne, htk, Or.inr ⟨hd2, ?_⟩⟩
          rw [List.drop_set_of_lt _ _ (by omega)]
          exact e2

theorem version_copy_any (V : List Char) (junk : Char) :
    strncpy (List.replicate (11 + 1) junk) V 11
      = some (V.take 11 ++ (List.replicate (11 - V.length) NUL ++ [junk])) := by
  have hl : (V.take 11 ++ List.replicate (11 - V.length) NUL).length = 11 := by
    simp only [List.length_append, List.length_take, List.length_replicate]
    omega
  have e3 : List.drop 11 (List.replicate (11 + 1) junk) = [junk] := by
    simp [List.drop_replicate]
  unfold strncpy store
  rw [hl, if_pos (by simp), Nat.zero_add, e3]
  simp

/-- A NUL-free start of the array `version` lies within the version string. -/
theorem nul_free_start (X A V T : List Char) (hX : NUL ∉ X) (h : X ++ A = V ++ T)
    (hA : A ≠ []) (hT : (∃ T1, T = NUL :: T1) ∨ T.length = 1) : ∃ W, V = X ++ W := by
  rcases List.append_eq_append_iff.1 h with ⟨a, h1, _⟩ | ⟨c, h1, h2⟩
  · exact ⟨a, h1⟩
  · cases c with
    | nil => exact ⟨[], by simpa using h1.symm⟩
    | cons x c =>
      exfalso
      rcases hT with ⟨T1, hT1⟩ | hT1
      · rw [hT1, List.cons_append] at h2
        injection h2 with e1 e2
        apply hX
        rw [h1, ← e1]
        simp
      · rw [h2] at hT1
        cases A with
        | nil => exact hA rfl
        | cons y A =>
          simp only [List.length_append, List.length_cons] at hT1
          omega

theorem not_NUL_head (R Z tok : List Char) (k : Nat) (hne : tok ≠ [])
    (htok : ∀ x ∈ tok, x ≠ '.' ∧ x ≠ NUL)
    (h : NUL :: R = List.replicate k '.' ++ (tok ++ Z)) : False := by
  cases k with
  | zero =>
    obtain ⟨x, xs, rfl⟩ := List.exists_cons_of_ne_nil hne
    rw [List.replicate_zero, List.nil_append, List.cons_append] at h
    injection h with e1 _
    exact (htok x (by simp)).2 e1.symm
  | succ k =>
    rw [List.replicate_succ, List.cons_append] at h
    injection h with e1 _
    exact absurd e1 (by decide)

/-- A call of `log_version` with three slots that returns has found three
components in the version string. -/
theorem log_version_some (V : List Char) (junk : Char) (mj mn pt : List Char)
    (r : List Char × Option (List Char) × Option (List Char) × Option (List Char))
    (h : log_version V junk (some mj) (some mn) (some pt) = some r) :
    3 ≤ (spec_components V).length := by
  simp only [log_version, version_copy_any, Option.bind_eq_bind, Option.some_bind, bind] at h
  cases h1 : strtok (V.take 11 ++ (List.replicate (11 - V.length) NUL ++ [junk])) 0 with
  | none => simp [h1, Option.bind] at h
  | some p1 =>
    obtain ⟨tk1, v1, s1⟩ := p1
    cases tk1 with
    | none => simp [h1, Option.bind, strncpy_token] at h
    | some t1 =>
      cases h2 : strtok v1 s1 with
      | none =>
        simp only [h1, h2, Option.bind, strncpy_token] at h
        cases hh : strncpy mj t1 3 <;> simp [hh] at h
      | some p2 =>
        obtain ⟨tk2, v2, s2⟩ := p2
        cases tk2 with
        | none =>
          simp only [h1, h2, Option.bind, strncpy_token] at h
          cases hh : strncpy mj t1 3 <;> simp [hh] at h
        | some t2 =>
          cases h3 : strtok v2 s2 with
          | none =>
            simp only [h1, h2, h3, Option.bind, strncpy_token] at h
            cases hh : strncpy mj t1 3 <;> cases hh2 : strncpy mn t2 3 <;> simp [hh, hh2] at h
          | some p3 =>
            obtain ⟨tk3, v3, s3⟩ := p3
            cases tk3 with
            | none =>
              simp only [h1, h2, h3, Option.bind, strncpy_token] at h
              cases hh : strncpy mj t1 3 <;> cases hh2 : strncpy mn t2 3 <;> simp [hh, hh2] at h
            | some t3 =>
              obtain ⟨k0, d1, rest1, e1, hn1, ht1, hd1⟩ := strtok_some _ _ _ _ _ h1
              obtain ⟨k1, d2, rest2, e2, hn2, ht2, hd2⟩ := strtok_some _ _ _ _ _ h2
              obtain ⟨k2, d3, rest3, e3, hn3, ht3, hd3⟩ := strtok_some _ _ _ _ _ h3
              rcases hd1 with ⟨_, hd1⟩ | ⟨hd1c, hd1⟩
              · rw [hd1] at e2
                exact (not_NUL_head _ _ _ _ hn2 ht2 e2).elim
              rcases hd2 with ⟨_, hd2⟩ | ⟨hd2c, hd2⟩
              · rw [hd2] at e3
                exact (not_NUL_head _ _ _ _ hn3 ht3 e3).elim
              rw [hd1] at e2
              rw [hd2] at e3
              rw [List.drop_zero, hd1c, e2, hd2c, e3] at e1
              have hX : NUL ∉ List.replicate k0 '.' ++ (t1 ++ '.' :: (List.replicate k1 '.'
                  ++ (t2 ++ '.' :: (List.replicate k2 '.' ++ t3)))) := by
                intro hmem
                simp only [List.mem_append, List.mem_cons, List.mem_replicate] at hmem
                rcases hmem with ⟨_, h⟩ | h | h | ⟨_, h⟩ | h | h | ⟨_, h⟩ | h
                · exact absurd h (by decide)
                · exact (ht1 _ h).2 rfl
                · exact absurd h (by decide)
                · exact absurd h (by decide)
                · exact (ht2 _ h).2 rfl
                · exact absurd h (by decide)
                · exact absurd h (by decide)
                · exact (ht3 _ h).2 rfl
              have hT : (∃ T1, List.replicate (11 - V.length) NUL ++ [junk] = NUL :: T1)
                  ∨ (List.replicate (11 - V.length) NUL ++ [junk]).length = 1 := by
                cases hm : 11 - V.length with
                | zero => exact Or.inr rfl
                | succ m => exact Or.inl ⟨_, rfl⟩
              obtain ⟨W, hW⟩ := nul_free_start _ (d3 :: rest3) (V.take 11)
                (List.replicate (11 - V.length) NUL ++ [junk]) hX
                (by rw [e1]; simp) (by simp) hT
              have hVW : V = List.replicate k0 '.' ++ (t1 ++ '.' :: (List.replicate k1 '.'
                  ++ (t2 ++ '.' :: (List.replicate k2 '.' ++ (t3 ++ (W ++ V.drop 11)))))) := by
                conv_lhs => rw [← List.take_append_drop 11 V, hW]
                simp
              obtain ⟨t, cs, hcs⟩ := spec_components_ne_nil t3 (W ++ V.drop 11) hn3
                (fun x hx => (ht3 x hx).1)
              rw [hVW, spec_components_dots, spec_components_token _ _ hn1 (fun x hx => (ht1 x hx).1),
                spec_components_dots, spec_components_token _ _ hn2 (fun x hx => (ht2 x hx).1),
                spec_components_dots, hcs]
              simp

/-- The version `1.2` with three slots: the tokens are `1`, `2` and then
none, and `strncpy` reads through the absent token. -/
theorem log_version_two_tokens (junk : Char) (mj mn pt : List Char) :
    strncpy (List.replicate (11 + 1) junk) "1.2".toList 11
        = some ("1.2".toList ++ List.replicate 8 NUL ++ [junk])
    ∧ strtok ("1.2".toList ++ List.replicate 8 NUL ++ [junk]) 0
        = some (some "1".toList,
            "1".toList ++ NUL :: "2".toList ++ List.replicate 8 NUL ++ [junk], 2)
    ∧ strtok ("1".toList ++ NUL :: "2".toList ++ List.replicate 8 NUL ++ [junk]) 2
        = some (some "2".toList,
            "1".toList ++ NUL :: "2".toList ++ List.replicate 8 NUL ++ [junk], 3)
    ∧ strtok ("1".toList ++ NUL :: "2".toList ++ List.replicate 8 NUL ++ [junk]) 3
        = some (none, "1".toList ++ NUL :: "2".toList ++ List.replicate 8 NUL ++ [junk], 3)
    ∧ strncpy_token pt none 3 = none
    ∧ log_version "1.2".toList junk (some mj) (some mn) (some pt) = none := by
  have e0 : strncpy (List.replicate (11 + 1) junk) "1.2".toList 11
        = some ("1.2".toList ++ List.replicate 8 NUL ++ [junk]) := by
    simp [strncpy, store, List.replicate]
  have e1 : strtok ("1.2".toList ++ List.replicate 8 NUL ++ [junk]) 0
        = some (some "1".toList,
            "1".toList ++ NUL :: "2".toList ++ List.replicate 8 NUL ++ [junk], 2) := by
    simp [strtok, List.replicate, NUL, List.takeWhile]
  have e2 : strtok ("1".toList ++ NUL :: "2".toList ++ List.replicate 8 NUL ++ [junk]) 2
        = some (some "2".toList,
            "1".toList ++ NUL :: "2".toList ++ List.replicate 8 NUL ++ [junk], 3) := by
    simp [strtok, List.replicate, NUL, List.takeWhile]
  have e3 : strtok ("1".toList ++ NUL :: "2".toList ++ List.replicate 8 NUL ++ [junk]) 3
        = some (none,
            "1".toList ++ NUL :: "2".toList ++ List.replicate 8 NUL ++ [junk], 3) := by
    simp [strtok, List.replicate, NUL, List.takeWhile]
  refine ⟨e0, e1, e2, e3, rfl, ?_⟩
  simp only [log_version, e0, e1, e2, e3, Option.bind_eq_bind, Option.some_bind,
    Option.bind, strncpy_token, bind]
  cases strncpy mj "1".toList 3 with
  | none => rfl
  | some x => cases strncpy mn "2".toList 3 <;> rfl

/-- C14 as stated fails: for the version string `1.2` with three slots the
third `strtok` returns no token, `strncpy` reads through the absent token,
and the call has no defined result: no parse failure is returned. -/
theorem log_version_absent_token :
    strtok ("1".toList ++ NUL :: "2".toList ++ List.replicate 8 NUL ++ ['x']) 3
        = some (none, "1".toList ++ NUL :: "2".toList ++ List.replicate 8 NUL ++ ['x'], 3)
    ∧ strncpy_token "....".toList none 3 = none
    ∧ log_version "1.2".toList 'x' (some "....".toList) (some "....".toList)
        (some "....".toList) = none :=
  ⟨(log_version_two_tokens 'x' "....".toList "....".toList "....".toList).2.2.2.1,
    rfl,
    (log_version_two_tokens 'x' "....".toList "....".toList "....".toList).2.2.2.2.2⟩

/-- C14 (amended): for every version string with fewer than three
dot-separated components, `log_version` called with three slots returns no
parse failure, nor the version string: the call has no defined result
(`none`). -/
theorem log_version_malformed (V : List Char) (junk : Char) (mj mn pt : List Char)
    (h : (spec_components V).length < 3) :
    log_version V junk (some mj) (some mn) (some pt) = none := by
  cases hr : log_version V junk (some mj) (some mn) (some pt) with
  | none => rfl
  | some r =>
    have := log_version_some V junk mj mn pt r hr
    omega

/-- The version `1` with three slots of four bytes. -/
theorem log_version_malformed_witness :
    log_version "1".toList 'x' (some "....".toList) (some "....".toList) (some "....".toList)
        = none :=
  log_version_malformed "1".toList 'x' "....".toList "....".toList "....".toList (by decide)

/-- The version `1.2.3` with three slots of four bytes. -/
theorem log_version_well_formed_example :
    log_version "1.2.3".toList 'x' (some "....".toList) (some "....".toList)
        (some "....".toList)
      = some ("1.2.3".toList, some ['1', NUL, NUL, '.'], some ['2', NUL, NUL, '.'],
          some ['3', NUL, NUL, '.']) := by
  decide

end Liblog
